import Mathlib

set_option linter.unusedVariables false
set_option maxRecDepth 100000

/-- Outcome of running a piece of Rust code that may panic: `panic` models a
process abort (a failed `unwrap`, a failed assertion, an out-of-bounds index or
slice, or an explicit panic), while `ok` models a normal return.  The source
under verification has no error-value channel at all: every failure is an
abort. -/
inductive PanicOr (α : Type) where
  | panic : PanicOr α
  | ok : α → PanicOr α
deriving DecidableEq

/-- ASCII byte list of a string literal consisting of ASCII characters. -/
def asciiBytes (s : String) : List Nat := s.data.map Char.toNat

/-- Byte-level test matching `u8::is_ascii_digit`. -/
def isAsciiDigit (b : Nat) : Bool := 48 ≤ b && b ≤ 57

/-- Value of a string of ASCII decimal digits, most significant first. -/
def digitsToNat (bs : List Nat) : Nat := bs.foldl (fun acc b => acc * 10 + (b - 48)) 0

/-- Fuel-indexed digit expansion; the fuel strictly dominates the number of
decimal digits, so the zero-fuel case is unreachable from `natToDecimal`. -/
def natToDecimalAux : Nat → Nat → List Nat
  | 0, _ => []
  | f + 1, n => if n < 10 then [48 + n] else natToDecimalAux f (n / 10) ++ [48 + n % 10]

/-- Decimal ASCII rendering of a natural number, as produced by Rust
`to_string` on an unsigned integer. -/
def natToDecimal (n : Nat) : List Nat := natToDecimalAux (n + 1) n

/-- Decimal ASCII rendering of a signed integer, as produced by Rust
`to_string` on an `i64` (ASCII 45 is the minus sign). -/
def intToDecimal (i : Int) : List Nat :=
  if i < 0 then 45 :: natToDecimal (-i).toNat else natToDecimal i.toNat

/-- Model of `str::parse::<i64>().unwrap()` applied to the bytes produced by a
lossy UTF-8 decode: the parse succeeds exactly on an optional ASCII sign (43 is
plus and 45 is minus) followed by one or more ASCII digits whose value fits in
the 64-bit signed range; every other input panics.  Bytes that the lossy UTF-8
decode would have replaced or mapped to non-ASCII characters fail the digit
test, so they panic here exactly as in the source. -/
def parseI64 (bs : List Nat) : PanicOr Int :=
  match bs with
  | [] => .panic
  | b :: rest =>
      if b = 43 then
        if !rest.isEmpty && rest.all isAsciiDigit && digitsToNat rest ≤ 2 ^ 63 - 1 then
          .ok (digitsToNat rest)
        else .panic
      else if b = 45 then
        if !rest.isEmpty && rest.all isAsciiDigit && digitsToNat rest ≤ 2 ^ 63 then
          .ok (-(digitsToNat rest : Int))
        else .panic
      else
        if (b :: rest).all isAsciiDigit && digitsToNat (b :: rest) ≤ 2 ^ 63 - 1 then
          .ok (digitsToNat (b :: rest))
        else .panic

/-- Byte-lexicographic strict order on byte lists; this is exactly the order
`BTreeMap<String, Value>` uses on its keys, since Rust `String` ordering agrees
with the lexicographic order of UTF-8 bytes. -/
def lexLt : List Nat → List Nat → Bool
  | _, [] => false
  | [], _ :: _ => true
  | a :: as, b :: bs => if a < b then true else if b < a then false else lexLt as bs

/-- Continuation-byte test for UTF-8 (bytes 0x80 to 0xBF). -/
def isUtf8Cont (b : Nat) : Bool := 128 ≤ b && b ≤ 191

/-- Model of the validity check performed by `String::from_utf8`: the standard
UTF-8 well-formedness table (shortest forms only, surrogates and values above
U+10FFFF excluded). -/
def validUtf8 : List Nat → Bool
  | [] => true
  | b :: rest =>
    if b ≤ 127 then validUtf8 rest
    else if 194 ≤ b && b ≤ 223 then
      match rest with
      | c1 :: r => isUtf8Cont c1 && validUtf8 r
      | [] => false
    else if b = 224 then
      match rest with
      | c1 :: c2 :: r => (160 ≤ c1 && c1 ≤ 191) && isUtf8Cont c2 && validUtf8 r
      | _ => false
    else if (225 ≤ b && b ≤ 236) || b = 238 || b = 239 then
      match rest with
      | c1 :: c2 :: r => isUtf8Cont c1 && isUtf8Cont c2 && validUtf8 r
      | _ => false
    else if b = 237 then
      match rest with
      | c1 :: c2 :: r => (128 ≤ c1 && c1 ≤ 159) && isUtf8Cont c2 && validUtf8 r
      | _ => false
    else if b = 240 then
      match rest with
      | c1 :: c2 :: c3 :: r =>
          (144 ≤ c1 && c1 ≤ 191) && isUtf8Cont c2 && isUtf8Cont c3 && validUtf8 r
      | _ => false
    else if 241 ≤ b && b ≤ 243 then
      match rest with
      | c1 :: c2 :: c3 :: r =>
          isUtf8Cont c1 && isUtf8Cont c2 && isUtf8Cont c3 && validUtf8 r
      | _ => false
    else if b = 244 then
      match rest with
      | c1 :: c2 :: c3 :: r =>
          (128 ≤ c1 && c1 ≤ 143) && isUtf8Cont c2 && isUtf8Cont c3 && validUtf8 r
      | _ => false
    else false

/-- Bencode value tree, mirroring `enum Value` in `src/lib.rs`: raw byte
strings, signed 64-bit integers, lists, and dictionaries.  A Rust
`BTreeMap<String, Value>` is modelled by its ordered entry list — the list of
(UTF-8 key bytes, value) pairs in ascending byte-lexicographic key order; the
ordering is maintained by `btreeInsert` below, matching how the decoder builds
its maps. -/
inductive Value where
  | bytes : List Nat → Value
  | integer : Int → Value
  | list : List Value → Value
  | dictionary : List (List Nat × Value) → Value

mutual

/-- Equality on values is decidable; spelled out by hand because automatic
derivation does not handle the nested occurrence of `Value` under `List`. -/
def valueDecEq : (a b : Value) → Decidable (a = b)
  | .bytes a, .bytes b =>
      match decEq a b with
      | isTrue h => isTrue (by rw [h])
      | isFalse h => isFalse (fun hh => h (Value.bytes.inj hh))
  | .integer a, .integer b =>
      match decEq a b with
      | isTrue h => isTrue (by rw [h])
      | isFalse h => isFalse (fun hh => h (Value.integer.inj hh))
  | .list a, .list b =>
      match valueListDecEq a b with
      | isTrue h => isTrue (by rw [h])
      | isFalse h => isFalse (fun hh => h (Value.list.inj hh))
  | .dictionary a, .dictionary b =>
      match valueEntriesDecEq a b with
      | isTrue h => isTrue (by rw [h])
      | isFalse h => isFalse (fun hh => h (Value.dictionary.inj hh))
  | .bytes _, .integer _ => isFalse nofun
  | .bytes _, .list _ => isFalse nofun
  | .bytes _, .dictionary _ => isFalse nofun
  | .integer _, .bytes _ => isFalse nofun
  | .integer _, .list _ => isFalse nofun
  | .integer _, .dictionary _ => isFalse nofun
  | .list _, .bytes _ => isFalse nofun
  | .list _, .integer _ => isFalse nofun
  | .list _, .dictionary _ => isFalse nofun
  | .dictionary _, .bytes _ => isFalse nofun
  | .dictionary _, .integer _ => isFalse nofun
  | .dictionary _, .list _ => isFalse nofun

/-- Decidable equality for lists of values. -/
def valueListDecEq : (a b : List Value) → Decidable (a = b)
  | [], [] => isTrue rfl
  | [], _ :: _ => isFalse nofun
  | _ :: _, [] => isFalse nofun
  | a :: as, b :: bs =>
      match valueDecEq a b, valueListDecEq as bs with
      | isTrue h1, isTrue h2 => isTrue (by rw [h1, h2])
      | isFalse h1, _ => isFalse (fun hh => by cases hh; exact h1 rfl)
      | _, isFalse h2 => isFalse (fun hh => by cases hh; exact h2 rfl)

/-- Decidable equality for dictionary entry lists. -/
def valueEntriesDecEq : (a b : List (List Nat × Value)) → Decidable (a = b)
  | [], [] => isTrue rfl
  | [], _ :: _ => isFalse nofun
  | _ :: _, [] => isFalse nofun
  | (k1, v1) :: as, (k2, v2) :: bs =>
      match decEq k1 k2, valueDecEq v1 v2, valueEntriesDecEq as bs with
      | isTrue h1, isTrue h2, isTrue h3 => isTrue (by rw [h1, h2, h3])
      | isFalse h1, _, _ => isFalse (fun hh => by cases hh; exact h1 rfl)
      | _, isFalse h2, _ => isFalse (fun hh => by cases hh; exact h2 rfl)
      | _, _, isFalse h3 => isFalse (fun hh => by cases hh; exact h3 rfl)

end

instance : DecidableEq Value := valueDecEq

/-- Encoding of a byte string value: decimal length, colon (byte 58), the
bytes.  Factored out because the dictionary case of the encoder encodes each
key by calling the encoder on `Value::Bytes(key)`, which is exactly this. -/
def encodeByteString (bs : List Nat) : List Nat := natToDecimal bs.length ++ 58 :: bs

mutual

/-- Model of `encode_bencoded_value` in `src/lib.rs`: byte strings become
`<decimal length>:<bytes>`, integers become `i<decimal>e`, lists concatenate
their encoded items between 108 and 101 (the letters l and e), dictionaries
concatenate encoded key (as a byte string) and value pairs in entry order
between 100 and 101 (the letters d and e). -/
def encode_bencoded_value : Value → List Nat
  | .bytes bs => encodeByteString bs
  | .integer i => 105 :: (intToDecimal i ++ [101])
  | .list xs => 108 :: (encodeElems xs ++ [101])
  | .dictionary es => 100 :: (encodeEntries es ++ [101])
termination_by structural v => v

/-- Concatenated encodings of the items of a list value. -/
def encodeElems : List Value → List Nat
  | [] => []
  | x :: r => encode_bencoded_value x ++ encodeElems r
termination_by structural xs => xs

/-- Concatenated encodings of the entries of a dictionary value: each key is
encoded as a byte-string value, immediately followed by the encoded value. -/
def encodeEntries : List (List Nat × Value) → List Nat
  | [] => []
  | (k, v) :: r => encodeByteString k ++ encode_bencoded_value v ++ encodeEntries r
termination_by structural es => es

end

/-- Model of `BTreeMap::insert` on the ordered entry list: the entry is placed
at its ordered position, replacing the value when the key is already
present. -/
def btreeInsert (k : List Nat) (v : Value) : List (List Nat × Value) → List (List Nat × Value)
  | [] => [(k, v)]
  | (k0, v0) :: rest =>
      if lexLt k k0 then (k, v) :: (k0, v0) :: rest
      else if k = k0 then (k, v) :: rest
      else (k0, v0) :: btreeInsert k v rest

mutual

/-- Fuel-indexed model of `decode_bencoded_value` in `src/lib.rs`.  The four
branches dispatch on the leading byte exactly as the source does: a digit
starts a byte string (find the first colon, parse the decimal length, slice
that many bytes — an over-long declared length is the source's out-of-range
slice panic), 105 (the letter i) starts an integer (find the first 101, parse
the digits between), 108 and 100 (the letters l and d) enter the list and
dictionary loops, and anything else — including an empty buffer, whose first
byte the source indexes unconditionally — panics.  Fuel only bounds the
recursion depth; the top-level wrapper supplies more fuel than any input can
consume. -/
def decodeValueF : Nat → List Nat → PanicOr (Value × Nat)
  | 0, _ => .panic
  | fuel + 1, buf =>
    match buf with
    | [] => .panic
    | b :: _ =>
      if isAsciiDigit b then
        match buf.findIdx? (fun v => v == 58) with
        | none => .panic
        | some colonIdx =>
          match parseI64 (buf.take colonIdx) with
          | .panic => .panic
          | .ok number =>
            let read := colonIdx + 1 + number.toNat
            if read ≤ buf.length then
              .ok (.bytes ((buf.drop (colonIdx + 1)).take number.toNat), read)
            else .panic
      else if b = 105 then
        match buf.findIdx? (fun v => v == 101) with
        | none => .panic
        | some eIdx =>
          match parseI64 ((buf.take eIdx).drop 1) with
          | .panic => .panic
          | .ok n => .ok (.integer n, eIdx + 1)
      else if b = 108 then
        decodeListF fuel (buf.drop 1) [] 1
      else if b = 100 then
        decodeDictF fuel (buf.drop 1) [] 1
      else .panic

/-- Model of the list loop of `decode_bencoded_value`: `remaining` is the
suffix at the current position, `acc` the elements decoded so far in reverse,
`pos` the running offset inside the original buffer.  On seeing 101 (the
letter e) the loop returns the accumulated list together with `pos` — the
offset of that byte, which is not counted as consumed.  An exhausted suffix is
the source's panic on indexing the empty remainder. -/
def decodeListF : Nat → List Nat → List Value → Nat → PanicOr (Value × Nat)
  | 0, _, _, _ => .panic
  | fuel + 1, remaining, acc, pos =>
    match remaining with
    | [] => .panic
    | r :: _ =>
      if r = 101 then .ok (.list acc.reverse, pos)
      else
        match decodeValueF fuel remaining with
        | .panic => .panic
        | .ok (elem, read) =>
            decodeListF fuel (remaining.drop read) (elem :: acc) (pos + read)

/-- Model of the dictionary loop of `decode_bencoded_value`: alternately
decodes a key — which must be a byte string holding valid UTF-8, else the
source's `String::from_utf8` unwrap or the explicit panic on a non-byte-string
key fires — and a value, inserting each pair via `btreeInsert`.  As in the
list loop, the terminating 101 byte is not counted in the returned offset. -/
def decodeDictF : Nat → List Nat → List (List Nat × Value) → Nat → PanicOr (Value × Nat)
  | 0, _, _, _ => .panic
  | fuel + 1, remaining, acc, pos =>
    match remaining with
    | [] => .panic
    | r :: _ =>
      if r = 101 then .ok (.dictionary acc, pos)
      else
        match decodeValueF fuel remaining with
        | .panic => .panic
        | .ok (key, kread) =>
          match key with
          | .bytes kbs =>
            if validUtf8 kbs then
              match decodeValueF fuel (remaining.drop kread) with
              | .panic => .panic
              | .ok (v, vread) =>
                  decodeDictF fuel ((remaining.drop kread).drop vread)
                    (btreeInsert kbs v acc) (pos + kread + vread)
            else .panic
          | _ => .panic

end

/-- Model of `decode_bencoded_value` in `src/lib.rs`.  The source terminates on
every input (each recursive call and each loop iteration moves strictly
forward through the buffer); fuel `2 * length + 4` strictly exceeds the
longest possible chain of nested calls, so exhausting the fuel is never the
reason for a panic. -/
def decode_bencoded_value (buf : List Nat) : PanicOr (Value × Nat) :=
  decodeValueF (2 * buf.length + 4) buf

/-- Value accessor matching `Value::into_bytes`. -/
def Value.into_bytes : Value → Option (List Nat)
  | .bytes bs => some bs
  | _ => none

/-- Value accessor matching `Value::into_integer`. -/
def Value.into_integer : Value → Option Int
  | .integer i => some i
  | _ => none

/-- Value accessor matching `Value::into_dictionary`. -/
def Value.into_dictionary : Value → Option (List (List Nat × Value))
  | .dictionary es => some es
  | _ => none

/-- Model of `BTreeMap::remove`: the value at the key, together with the map
without that entry. -/
def btreeRemove (k : List Nat) : List (List Nat × Value) → Option (Value × List (List Nat × Value))
  | [] => none
  | (k0, v0) :: rest =>
      if k0 = k then some (v0, rest)
      else
        match btreeRemove k rest with
        | none => none
        | some (v, rest') => some (v, (k0, v0) :: rest')

/-- Truncation to 32 bits. -/
def w32 (n : Nat) : Nat := n % 2 ^ 32

/-- Left rotation of a 32-bit word by `s` places. -/
def rotl32 (s n : Nat) : Nat := n % 2 ^ (32 - s) * 2 ^ s + n / 2 ^ (32 - s)

/-- Big-endian 32-bit words of a byte list (groups of four bytes). -/
def bytesToWords : List Nat → List Nat
  | b0 :: b1 :: b2 :: b3 :: r => (((b0 * 256 + b1) * 256 + b2) * 256 + b3) :: bytesToWords r
  | _ => []

/-- SHA-1 message-schedule extension: appends `count` further words, each the
1-bit left rotation of the exclusive or of the words 3, 8, 14 and 16 back. -/
def sha1ExtendAux : Nat → List Nat → List Nat
  | 0, acc => acc
  | count + 1, acc =>
      let len := acc.length
      let w := rotl32 1 (Nat.xor (Nat.xor (acc.getD (len - 3) 0) (acc.getD (len - 8) 0))
        (Nat.xor (acc.getD (len - 14) 0) (acc.getD (len - 16) 0)))
      sha1ExtendAux count (acc ++ [w])

/-- SHA-1 round function, by round index. -/
def sha1F (t b c d : Nat) : Nat :=
  if t < 20 then Nat.lor (Nat.land b c) (Nat.land (Nat.xor b (2 ^ 32 - 1)) d)
  else if t < 40 then Nat.xor (Nat.xor b c) d
  else if t < 60 then Nat.lor (Nat.lor (Nat.land b c) (Nat.land b d)) (Nat.land c d)
  else Nat.xor (Nat.xor b c) d

/-- SHA-1 round constant, by round index. -/
def sha1K (t : Nat) : Nat :=
  if t < 20 then 0x5A827999
  else if t < 40 then 0x6ED9EBA1
  else if t < 60 then 0x8F1BBCDC
  else 0xCA62C1D6

/-- The 80 SHA-1 rounds over one block's message schedule. -/
def sha1Rounds : Nat → List Nat → Nat × Nat × Nat × Nat × Nat → Nat × Nat × Nat × Nat × Nat
  | _, [], st => st
  | t, w :: ws, (a, b, c, d, e) =>
      let temp := w32 (rotl32 5 a + sha1F t b c d + e + sha1K t + w)
      sha1Rounds (t + 1) ws (temp, a, rotl32 30 b, c, d)

/-- Compression of `count` consecutive 64-byte blocks into the running hash
state; `count` equals the number of blocks, making the recursion structural. -/
def sha1BlocksAux : Nat → List Nat → Nat × Nat × Nat × Nat × Nat → Nat × Nat × Nat × Nat × Nat
  | 0, _, st => st
  | count + 1, bytes, (h0, h1, h2, h3, h4) =>
      let ws := sha1ExtendAux 64 (bytesToWords (bytes.take 64))
      let (a, b, c, d, e) := sha1Rounds 0 ws (h0, h1, h2, h3, h4)
      sha1BlocksAux count (bytes.drop 64)
        (w32 (h0 + a), w32 (h1 + b), w32 (h2 + c), w32 (h3 + d), w32 (h4 + e))

/-- Big-endian bytes of a 32-bit word. -/
def wordBytes (w : Nat) : List Nat :=
  [w / 2 ^ 24 % 256, w / 2 ^ 16 % 256, w / 2 ^ 8 % 256, w % 256]

/-- SHA-1 digest of a byte list, 20 bytes, per FIPS 180: pad with 0x80, zeros
and the 64-bit big-endian bit length to a multiple of 64 bytes, then compress
block by block from the standard initial state.  This models the
`sha1::Sha1` hasher the source feeds the re-encoded info value into. -/
def sha1 (msg : List Nat) : List Nat :=
  let padZeros := (64 + 56 - (msg.length + 1) % 64) % 64
  let bitLen := msg.length * 8
  let lenBytes := [bitLen / 2 ^ 56 % 256, bitLen / 2 ^ 48 % 256, bitLen / 2 ^ 40 % 256,
    bitLen / 2 ^ 32 % 256, bitLen / 2 ^ 24 % 256, bitLen / 2 ^ 16 % 256,
    bitLen / 2 ^ 8 % 256, bitLen % 256]
  let padded := msg ++ 128 :: (List.replicate padZeros 0 ++ lenBytes)
  let st := sha1BlocksAux (padded.length / 64) padded
    (0x67452301, 0xEFCDAB89, 0x98BADCFE, 0x10325476, 0xC3D2E1F0)
  wordBytes st.1 ++ wordBytes st.2.1 ++ wordBytes st.2.2.1 ++ wordBytes st.2.2.2.1 ++
    wordBytes st.2.2.2.2

/-- Torrent info section, mirroring `struct MetainfoInfo` in `src/lib.rs`:
the `name` field holds the UTF-8 bytes of the Rust `String`, `hash` the 20
SHA-1 digest bytes. -/
structure MetainfoInfo where
  length : Nat
  name : List Nat
  piece_length : Nat
  pieces : List Nat
  hash : List Nat
deriving DecidableEq

/-- Model of `MetainfoInfo::decode`: first the given value is re-encoded and
digested — before any field is inspected, so every entry of the value,
understood or not, contributes to the hash — then the dictionary entries
`length`, `name`, `piece length` and `pieces` are removed and converted, each
failed lookup or conversion being an unwrap panic.  The non-negativity checks
are the `usize::try_from` unwraps.  No check relates `pieces` to `length` or
`piece length`, and the length of `pieces` is not examined at all. -/
def MetainfoInfo.decode (v : Value) : PanicOr MetainfoInfo :=
  let bencoded := encode_bencoded_value v
  let hash := sha1 bencoded
  match v.into_dictionary with
  | none => .panic
  | some d =>
    match btreeRemove (asciiBytes ("length")) d with
    | none => .panic
    | some (lengthValue, d1) =>
      match lengthValue.into_integer with
      | none => .panic
      | some lengthInt =>
        match btreeRemove (asciiBytes ("name")) d1 with
        | none => .panic
        | some (nameValue, d2) =>
          match nameValue.into_bytes with
          | none => .panic
          | some nameBytes =>
            if validUtf8 nameBytes then
              match btreeRemove (asciiBytes ("piece length")) d2 with
              | none => .panic
              | some (pieceLengthValue, d3) =>
                match pieceLengthValue.into_integer with
                | none => .panic
                | some pieceLengthInt =>
                  match btreeRemove (asciiBytes ("pieces")) d3 with
                  | none => .panic
                  | some (piecesValue, _) =>
                    match piecesValue.into_bytes with
                    | none => .panic
                    | some pieces =>
                      if 0 ≤ lengthInt ∧ 0 ≤ pieceLengthInt then
                        .ok ⟨lengthInt.toNat, nameBytes, pieceLengthInt.toNat, pieces, hash⟩
                      else .panic
            else .panic

/-- Chunking with fuel equal to the list length, so the recursion is
structural; the tail chunk may be shorter than `n`. -/
def listChunksAux : Nat → Nat → List Nat → List (List Nat)
  | 0, _, _ => []
  | _ + 1, _, [] => []
  | fuel + 1, n, a :: t => (a :: t).take n :: listChunksAux fuel n ((a :: t).drop n)

/-- Model of `slice::chunks(n)`: successive chunks of `n` elements, the last
chunk possibly shorter, never dropped. -/
def listChunks (n : Nat) (l : List Nat) : List (List Nat) := listChunksAux l.length n l

/-- Model of `MetainfoInfo::piece_hashes`: the pieces bytes in chunks of 20. -/
def MetainfoInfo.piece_hashes (info : MetainfoInfo) : List (List Nat) :=
  listChunks 20 info.pieces

/-- Torrent metainfo, mirroring `struct Metainfo` in `src/lib.rs`; `announce`
holds the UTF-8 bytes of the tracker URL string. -/
structure Metainfo where
  announce : List Nat
  info : MetainfoInfo
deriving DecidableEq

/-- Model of `Metainfo::decode`: the root must be a dictionary; `announce` is
removed and decoded as UTF-8, then the `info` entry is removed from the
remaining map and handed to `MetainfoInfo.decode`. -/
def Metainfo.decode (v : Value) : PanicOr Metainfo :=
  match v.into_dictionary with
  | none => .panic
  | some d =>
    match btreeRemove (asciiBytes ("announce")) d with
    | none => .panic
    | some (announceValue, d1) =>
      match announceValue.into_bytes with
      | none => .panic
      | some announceBytes =>
        if validUtf8 announceBytes then
          match btreeRemove (asciiBytes ("info")) d1 with
          | none => .panic
          | some (infoValue, _) =>
            match MetainfoInfo.decode infoValue with
            | .panic => .panic
            | .ok info => .ok ⟨announceBytes, info⟩
        else .panic

/-- Byte test for the RFC 3986 unreserved set: ASCII letters, digits, and the
four marks hyphen, period, underscore, tilde. -/
def isUrlUnreserved (b : Nat) : Bool :=
  isAsciiDigit b || (65 ≤ b && b ≤ 90) || (97 ≤ b && b ≤ 122) ||
    b = 45 || b = 46 || b = 95 || b = 126

/-- Uppercase hexadecimal digit for a value below 16. -/
def hexDigitUpper (n : Nat) : Nat := if n < 10 then 48 + n else 55 + n

/-- Model of `urlencoding::encode_binary`: every byte outside the RFC 3986
unreserved set becomes a percent sign followed by two uppercase hexadecimal
digits; unreserved bytes pass through literally. -/
def encode_binary (data : List Nat) : List Nat :=
  data.flatMap fun b =>
    if isUrlUnreserved b then [b]
    else [37, hexDigitUpper (b / 16), hexDigitUpper (b % 16)]

/-- Tracker announce request, mirroring `struct TrackerRequest`. -/
structure TrackerRequest where
  info_hash : List Nat
  peer_id : List Nat
  port : Nat
  uploaded : Nat
  downloaded : Nat
  left : Nat
  compact : Bool
deriving DecidableEq

/-- Model of `TrackerRequest::url`: the announce URL, a question mark (byte
63), then the seven query parameters joined by ampersands (byte 38) in source
order — info_hash, peer_id, port, uploaded, downloaded, left, compact.  Note
the source encodes `metainfo.info().hash()` for the info_hash parameter (not
the request's own `info_hash` field) and renders `compact` via `as u8`. -/
def TrackerRequest.url (req : TrackerRequest) (metainfo : Metainfo) : List Nat :=
  metainfo.announce ++ 63 :: (asciiBytes ("info_hash=") ++ encode_binary metainfo.info.hash ++
    38 :: (asciiBytes ("peer_id=") ++ encode_binary req.peer_id ++
    38 :: (asciiBytes ("port=") ++ natToDecimal req.port ++
    38 :: (asciiBytes ("uploaded=") ++ natToDecimal req.uploaded ++
    38 :: (asciiBytes ("downloaded=") ++ natToDecimal req.downloaded ++
    38 :: (asciiBytes ("left=") ++ natToDecimal req.left ++
    38 :: (asciiBytes ("compact=") ++ natToDecimal (if req.compact then 1 else 0))))))))

/-- An IPv4 socket address, mirroring `SocketAddrV4`. -/
structure SockAddrV4 where
  ip : Nat × Nat × Nat × Nat
  port : Nat
deriving DecidableEq

/-- Exact chunking with fuel equal to the list length: only full chunks of
`n` elements are produced, a shorter tail is silently dropped — the behaviour
of `slice::chunks_exact(n)`. -/
def listChunksExactAux : Nat → Nat → List Nat → List (List Nat)
  | 0, _, _ => []
  | fuel + 1, n, l => if n ≤ l.length then l.take n :: listChunksExactAux fuel n (l.drop n) else []

/-- Model of `slice::chunks_exact(n)`. -/
def listChunksExact (n : Nat) (l : List Nat) : List (List Nat) := listChunksExactAux l.length n l

/-- Tracker response, mirroring `struct TrackerResponse`. -/
structure TrackerResponse where
  interval : Nat
  peers : List SockAddrV4
deriving DecidableEq

/-- One compact peer entry: the first four bytes are the IPv4 octets in order,
the next two the big-endian port, exactly as the source's cursor reads them.
The chunks handed in always hold six bytes, so the defaults are never used. -/
def peerOfChunk (c : List Nat) : SockAddrV4 :=
  ⟨(c.getD 0 0, c.getD 1 0, c.getD 2 0, c.getD 3 0), c.getD 4 0 * 256 + c.getD 5 0⟩

/-- Model of `TrackerResponse::decode`: the value must be a dictionary with an
`interval` integer (non-negative, else the `u64::try_from` unwrap panics) and
a `peers` byte string, which is cut into six-byte chunks by `chunks_exact` —
trailing bytes beyond a multiple of six are dropped without any error. -/
def TrackerResponse.decode (v : Value) : PanicOr TrackerResponse :=
  match v.into_dictionary with
  | none => .panic
  | some d =>
    match btreeRemove (asciiBytes ("interval")) d with
    | none => .panic
    | some (intervalValue, d1) =>
      match intervalValue.into_integer with
      | none => .panic
      | some intervalInt =>
        if 0 ≤ intervalInt then
          match btreeRemove (asciiBytes ("peers")) d1 with
          | none => .panic
          | some (peersValue, _) =>
            match peersValue.into_bytes with
            | none => .panic
            | some peerBytes => .ok ⟨intervalInt.toNat, (listChunksExact 6 peerBytes).map peerOfChunk⟩
        else .panic

/-- Received handshake, mirroring `struct HandshakeResponse`. -/
structure HandshakeResponse where
  info_hash : List Nat
  peer_id : List Nat
deriving DecidableEq

/-- Outcome of running `HandshakeResponse::decode` against a byte stream:
either a panic after reading some number of bytes, or a response together
with the number of bytes read. -/
inductive HandshakeOutcome where
  | panic : Nat → HandshakeOutcome
  | ok : HandshakeResponse → Nat → HandshakeOutcome
deriving DecidableEq

/-- Model of `HandshakeResponse::decode` with the peer's stream as a byte
list: read one length byte, then that many bytes as the protocol literal —
the count read here is whatever the length byte says, not a fixed 19 — then
assert the literal (a UTF-8 unwrap followed by an equality assertion, each
failure a panic), then 8 reserved, 20 info-hash and 20 peer-id bytes.  A
stream exhausted mid-read is the I/O-error unwrap: a panic after consuming
what was available. -/
def HandshakeResponse.decode (stream : List Nat) : HandshakeOutcome :=
  match stream with
  | [] => .panic 0
  | length :: rest =>
      if rest.length < length then .panic (1 + rest.length)
      else
        let protocol := rest.take length
        if validUtf8 protocol then
          if protocol = asciiBytes ("BitTorrent protocol") then
            let r1 := rest.drop length
            if r1.length < 8 then .panic (1 + length + r1.length)
            else
              let r2 := r1.drop 8
              if r2.length < 20 then .panic (1 + length + 8 + r2.length)
              else
                let r3 := r2.drop 20
                if r3.length < 20 then .panic (1 + length + 28 + r3.length)
                else .ok ⟨r2.take 20, r3.take 20⟩ (1 + length + 48)
          else .panic (1 + length)
        else .panic (1 + length)

/-- The fixed maximum block size of the download loop in `src/main.rs`. -/
def block_size : Nat := 2 ^ 14

/-- Fuel-indexed model of the block-request loop in `src/main.rs`: while
bytes remain, request a block starting at `pieceLength - remaining` of size
`min remaining block_size`.  The fuel starts at `remaining`, which dominates
the iteration count since every iteration removes at least one byte. -/
def pieceBlocksAux : Nat → Nat → Nat → List (Nat × Nat)
  | 0, _, _ => []
  | fuel + 1, pieceLength, remaining =>
      if remaining = 0 then []
      else
        let off := pieceLength - remaining
        let bs := min remaining block_size
        (off, bs) :: pieceBlocksAux fuel pieceLength (remaining - bs)

/-- The (offset, length) pairs of the block requests the download loop issues
for a piece of the given effective length. -/
def pieceBlocks (pieceLength : Nat) : List (Nat × Nat) :=
  pieceBlocksAux pieceLength pieceLength pieceLength

/-- Model of the effective piece length computation in `src/main.rs`:
`piece_length.min(length - piece_length * index)`.  Subtraction is the
truncating Nat subtraction; the source's usize subtraction panics on
underflow, which the theorems exclude by hypothesis. -/
def effective_piece_length (pieceLen totalLen idx : Nat) : Nat :=
  min pieceLen (totalLen - pieceLen * idx)


/-- A value with no nested structure: a byte string or an integer. -/
def isFlat : Value → Bool
  | .bytes _ => true
  | .integer _ => true
  | _ => false

mutual

/-- Shape restriction under which the decoder's off-by-one consumed count for
containers stays harmless: every list or dictionary nested strictly inside the
value sits in the final position of its parent.  A container child that is
followed by further elements makes the parent's loop stop at the child's
terminating byte and drop the rest. -/
def goodShape : Value → Bool
  | .bytes _ => true
  | .integer _ => true
  | .list xs => goodElems xs
  | .dictionary es => goodEntries es
termination_by structural v => v

/-- List counterpart of `goodShape`: all elements but the last are flat, the
last is recursively good. -/
def goodElems : List Value → Bool
  | [] => true
  | [x] => goodShape x
  | x :: y :: r => isFlat x && goodElems (y :: r)
termination_by structural xs => xs

/-- Dictionary counterpart of `goodShape` on the entry values. -/
def goodEntries : List (List Nat × Value) → Bool
  | [] => true
  | [(_, v)] => goodShape v
  | (_, v) :: e :: r => isFlat v && goodEntries (e :: r)
termination_by structural es => es

end

mutual

/-- Constructibility of a value in the source's Rust types: byte strings are
`Vec<u8>` whose bytes are below 256 and whose length fits an `i64` (so the
decimal length prefix reparses), integers fit the signed 64-bit range, and
dictionary entries carry valid-UTF-8 `String` keys of bounded length in
strictly ascending byte-lexicographic order. -/
def wfValue : Value → Bool
  | .bytes bs => decide (bs.length ≤ 2 ^ 63 - 1) && bs.all (fun b => decide (b < 256))
  | .integer i => decide (-(2 ^ 63) ≤ i) && decide (i ≤ 2 ^ 63 - 1)
  | .list xs => wfElems xs
  | .dictionary es => wfEntries es
termination_by structural v => v

/-- Every element of the list is constructible. -/
def wfElems : List Value → Bool
  | [] => true
  | x :: r => wfValue x && wfElems r
termination_by structural xs => xs

/-- Every entry has a constructible key — valid UTF-8, bounded length, bytes
below 256 — strictly below all later keys, and a constructible value. -/
def wfEntries : List (List Nat × Value) → Bool
  | [] => true
  | (k, v) :: r =>
      validUtf8 k && decide (k.length ≤ 2 ^ 63 - 1) && k.all (fun b => decide (b < 256)) &&
        r.all (fun e => lexLt k e.1) && wfValue v && wfEntries r
termination_by structural es => es

end

mutual

/-- The number of bytes `decode_bencoded_value` reports as consumed when fed
the encoding of this value (followed by anything): the full encoded length for
byte strings and integers, but one byte short per enclosing container — the
terminating byte of a list or dictionary is never counted. -/
def bytesConsumed : Value → Nat
  | .bytes bs => (encodeByteString bs).length
  | .integer i => 2 + (intToDecimal i).length
  | .list xs => 1 + consumedElems xs
  | .dictionary es => 1 + consumedEntries es
termination_by structural v => v

/-- Total consumed count of a list's elements. -/
def consumedElems : List Value → Nat
  | [] => 0
  | x :: r => bytesConsumed x + consumedElems r
termination_by structural xs => xs

/-- Total consumed count of a dictionary's entries. -/
def consumedEntries : List (List Nat × Value) → Nat
  | [] => 0
  | (k, v) :: r => (encodeByteString k).length + bytesConsumed v + consumedEntries r
termination_by structural es => es

end

mutual

/-- An upper bound on the recursion depth the fuel-indexed decoder needs on
the encoding of this value; always at least 1 and at most one more than the
encoded length. -/
def fuelNeed : Value → Nat
  | .bytes _ => 1
  | .integer _ => 1
  | .list xs => 1 + fuelNeedElems xs
  | .dictionary es => 1 + fuelNeedEntries es
termination_by structural v => v

/-- Fuel bound for the list loop over these elements. -/
def fuelNeedElems : List Value → Nat
  | [] => 1
  | x :: r => 1 + max (fuelNeed x) (fuelNeedElems r)
termination_by structural xs => xs

/-- Fuel bound for the dictionary loop over these entries. -/
def fuelNeedEntries : List (List Nat × Value) → Nat
  | [] => 1
  | (_, v) :: r => 1 + max (fuelNeed v) (fuelNeedEntries r)
termination_by structural es => es

end

/-- First-match association lookup on dictionary entries, used to state which
value a key holds in the original (pre-removal) dictionary. -/
def lookupKey (k : List Nat) : List (List Nat × Value) → Option Value
  | [] => none
  | (k0, v0) :: rest => if k0 = k then some v0 else lookupKey k rest

/-- Example torrent info dictionary: the four understood fields plus an
unknown key `zz`, which parsing ignores but hashing must include. -/
def exampleInfoValue : Value :=
  .dictionary [
    (asciiBytes ("length"), .integer 1),
    (asciiBytes ("name"), .bytes (asciiBytes ("a"))),
    (asciiBytes ("piece length"), .integer 1),
    (asciiBytes ("pieces"), .bytes [1, 2, 3, 4, 5]),
    (asciiBytes ("zz"), .integer 9)]

/-- Example metainfo root dictionary holding `exampleInfoValue` under `info`. -/
def exampleRoot : Value :=
  .dictionary [
    (asciiBytes ("announce"), .bytes (asciiBytes ("http://t"))),
    (asciiBytes ("info"), exampleInfoValue)]

/-- The metainfo that decoding `exampleRoot` produces; the hash bytes are the SHA-1
digest of the canonical bencoding of `exampleInfoValue`. -/
def exampleMeta : Metainfo :=
  ⟨asciiBytes ("http://t"),
    ⟨1, asciiBytes ("a"), 1, [1, 2, 3, 4, 5],
      [15, 62, 190, 208, 189, 137, 188, 222, 101, 154, 127, 40, 41, 243, 93, 212,
        58, 57, 86, 174]⟩⟩

/-- Example tracker response dictionary whose compact peers string has length
7 — one byte past a multiple of six. -/
def c6Value : Value :=
  .dictionary [
    (asciiBytes ("interval"), .integer 0),
    (asciiBytes ("peers"), .bytes [1, 2, 3, 4, 5, 6, 7])]

/-- Percent-encoding as the claim words it: every byte rendered as a percent
sign and two hexadecimal digits, with no exception for unreserved bytes.
This is the claim-side rendering, to be compared with `encode_binary`, the
model of the library call the source actually makes. -/
def percentAll (data : List Nat) : List Nat :=
  data.flatMap fun b => [37, hexDigitUpper (b / 16), hexDigitUpper (b % 16)]

/-- The announce URL as the claim describes it: identical to
`TrackerRequest.url` except that the two binary fields are rendered with
`percentAll` — every byte as a percent escape. -/
def urlClaimAllEncoded (req : TrackerRequest) (metainfo : Metainfo) : List Nat :=
  metainfo.announce ++ 63 :: (asciiBytes ("info_hash=") ++ percentAll metainfo.info.hash ++
    38 :: (asciiBytes ("peer_id=") ++ percentAll req.peer_id ++
    38 :: (asciiBytes ("port=") ++ natToDecimal req.port ++
    38 :: (asciiBytes ("uploaded=") ++ natToDecimal req.uploaded ++
    38 :: (asciiBytes ("downloaded=") ++ natToDecimal req.downloaded ++
    38 :: (asciiBytes ("left=") ++ natToDecimal req.left ++
    38 :: (asciiBytes ("compact=") ++ natToDecimal (if req.compact then 1 else 0))))))))

/-- Example request whose peer id is the single unreserved byte 66 (B). -/
def c8Request : TrackerRequest := ⟨[65], [66], 6881, 0, 0, 1, true⟩

/-- Example metainfo whose stored info hash is the single byte 65 (A). -/
def c8Metainfo : Metainfo := ⟨asciiBytes ("http://t"), ⟨1, [97], 1, [], [65]⟩⟩

theorem digitsToNat_append_digit (l : List Nat) (d : Nat) :
    digitsToNat (l ++ [d]) = digitsToNat l * 10 + (d - 48) := by
  simp [digitsToNat, List.foldl_append]

theorem natToDecimalAux_succ (f n : Nat) :
    natToDecimalAux (f + 1) n =
      if n < 10 then [48 + n] else natToDecimalAux f (n / 10) ++ [48 + n % 10] := rfl

theorem natToDecimalAux_spec :
    ∀ f n, n < 10 ^ (f + 1) →
      natToDecimalAux (f + 1) n ≠ [] ∧ (natToDecimalAux (f + 1) n).all isAsciiDigit = true ∧
        digitsToNat (natToDecimalAux (f + 1) n) = n := by
  intro f
  induction f with
  | zero =>
      intro n h
      have hn : n < 10 := by simpa using h
      refine ⟨?_, ?_, ?_⟩
      · rw [natToDecimalAux_succ, if_pos hn]
        simp
      · rw [natToDecimalAux_succ, if_pos hn]
        simp [isAsciiDigit]
        omega
      · rw [natToDecimalAux_succ, if_pos hn]
        simp [digitsToNat]
  | succ f ih =>
      intro n h
      by_cases hn : n < 10
      · refine ⟨?_, ?_, ?_⟩
        · rw [natToDecimalAux_succ, if_pos hn]
          simp
        · rw [natToDecimalAux_succ, if_pos hn]
          simp [isAsciiDigit]
          omega
        · rw [natToDecimalAux_succ, if_pos hn]
          simp [digitsToNat]
      · have hdiv : n / 10 < 10 ^ (f + 1) := by
          rw [Nat.div_lt_iff_lt_mul (by norm_num)]
          calc n < 10 ^ (f + 1 + 1) := h
          _ = 10 ^ (f + 1) * 10 := by ring
        obtain ⟨h1, h2, h3⟩ := ih (n / 10) hdiv
        refine ⟨?_, ?_, ?_⟩
        · rw [natToDecimalAux_succ, if_neg hn]
          simp
        · rw [natToDecimalAux_succ, if_neg hn]
          simp only [List.all_append, Bool.and_eq_true]
          exact ⟨h2, by simp [isAsciiDigit]; omega⟩
        · rw [natToDecimalAux_succ, if_neg hn, digitsToNat_append_digit, h3]
          omega

theorem natToDecimal_lt_pow (n : Nat) : n < 10 ^ (n + 1) := by
  calc n < 10 ^ n := Nat.lt_pow_self (by norm_num) n
  _ ≤ 10 ^ (n + 1) := Nat.pow_le_pow_right (by norm_num) (by omega)

theorem natToDecimal_ne_nil (n : Nat) : natToDecimal n ≠ [] :=
  (natToDecimalAux_spec n n (natToDecimal_lt_pow n)).1

theorem natToDecimal_all_digits (n : Nat) : (natToDecimal n).all isAsciiDigit = true :=
  (natToDecimalAux_spec n n (natToDecimal_lt_pow n)).2.1

theorem digitsToNat_natToDecimal (n : Nat) : digitsToNat (natToDecimal n) = n :=
  (natToDecimalAux_spec n n (natToDecimal_lt_pow n)).2.2

theorem mem_natToDecimal_bounds {x n : Nat} (hx : x ∈ natToDecimal n) : 48 ≤ x ∧ x ≤ 57 := by
  have := List.all_eq_true.mp (natToDecimal_all_digits n) x hx
  simpa [isAsciiDigit] using this

theorem parseI64_natToDecimal (n : Nat) (h : n ≤ 2 ^ 63 - 1) :
    parseI64 (natToDecimal n) = .ok (n : Int) := by
  rcases hE : natToDecimal n with _ | ⟨d, t⟩
  · exact absurd hE (natToDecimal_ne_nil n)
  · have hall : (d :: t).all isAsciiDigit = true := hE ▸ natToDecimal_all_digits n
    have hd : 48 ≤ d ∧ d ≤ 57 := mem_natToDecimal_bounds (hE ▸ List.mem_cons_self d t)
    have hval : digitsToNat (d :: t) = n := hE ▸ digitsToNat_natToDecimal n
    simp only [parseI64]
    rw [if_neg (by omega), if_neg (by omega), if_pos (by simp [hall, hval]; omega), hval]

theorem parseI64_intToDecimal (i : Int) (h1 : -(2 ^ 63) ≤ i) (h2 : i ≤ 2 ^ 63 - 1) :
    parseI64 (intToDecimal i) = .ok i := by
  by_cases hi : i < 0
  · rw [intToDecimal, if_pos hi]
    have hmb : (-i).toNat ≤ 2 ^ 63 := by omega
    have hne : ¬(natToDecimal (-i).toNat).isEmpty := by
      simp [List.isEmpty_iff, natToDecimal_ne_nil]
    simp only [parseI64]
    rw [if_neg (by norm_num), if_pos trivial,
      if_pos (by simp [hne, natToDecimal_all_digits, digitsToNat_natToDecimal]; omega),
      digitsToNat_natToDecimal]
    have : ((-i).toNat : Int) = -i := by omega
    rw [this]
    simp
  · rw [intToDecimal, if_neg hi]
    have hb : i.toNat ≤ 2 ^ 63 - 1 := by omega
    rw [parseI64_natToDecimal _ hb, Int.toNat_of_nonneg (by omega)]

theorem mem_intToDecimal_bounds {x : Nat} {i : Int} (hx : x ∈ intToDecimal i) :
    x = 45 ∨ (48 ≤ x ∧ x ≤ 57) := by
  rw [intToDecimal] at hx
  by_cases hi : i < 0
  · rw [if_pos hi] at hx
    rcases List.mem_cons.mp hx with h | h
    · exact Or.inl h
    · exact Or.inr (mem_natToDecimal_bounds h)
  · rw [if_neg hi] at hx
    exact Or.inr (mem_natToDecimal_bounds hx)

theorem findIdx?_marker (p : Nat → Bool) (b : Nat) (hb : p b = true) :
    ∀ (l1 l2 : List Nat) (s : Nat), (∀ a ∈ l1, p a = false) →
      List.findIdx? p (l1 ++ b :: l2) s = some (s + l1.length) := by
  intro l1
  induction l1 with
  | nil =>
      intro l2 s h
      simp [List.findIdx?_cons, hb]
  | cons a t ih =>
      intro l2 s h
      rw [List.cons_append, List.findIdx?_cons, if_neg (by simp [h a (by simp)]),
        ih l2 (s + 1) (fun x hx => h x (by simp [hx]))]
      congr 1
      simp
      omega

theorem encodeByteString_eq (bs : List Nat) :
    encodeByteString bs = natToDecimal bs.length ++ 58 :: bs := rfl

theorem encodeByteString_length (bs : List Nat) :
    (encodeByteString bs).length = (natToDecimal bs.length).length + 1 + bs.length := by
  simp [encodeByteString_eq]
  omega

theorem lexLt_irrefl : ∀ k, lexLt k k = false := by
  intro k
  induction k with
  | nil => rfl
  | cons a t ih => simp [lexLt, ih]

theorem lexLt_asymm : ∀ a b, lexLt a b = true → lexLt b a = false := by
  intro a
  induction a with
  | nil =>
      intro b hb
      cases b with
      | nil => simp [lexLt] at hb
      | cons x t => rfl
  | cons x t ih =>
      intro b hb
      cases b with
      | nil => simp [lexLt] at hb
      | cons y u =>
          simp only [lexLt] at hb ⊢
          rcases Nat.lt_trichotomy x y with hxy | hxy | hxy
          · rw [if_neg (show ¬ y < x by omega), if_pos hxy]
          · subst hxy
            rw [if_neg (show ¬ x < x by omega), if_neg (show ¬ x < x by omega)] at hb ⊢
            exact ih u hb
          · rw [if_neg (show ¬ x < y by omega), if_pos hxy] at hb
            exact absurd hb (by simp)

theorem btreeInsert_append (k : List Nat) (v : Value) :
    ∀ acc, (∀ a ∈ acc, lexLt a.1 k = true) → btreeInsert k v acc = acc ++ [(k, v)] := by
  intro acc
  induction acc with
  | nil => intro _; rfl
  | cons e rest ih =>
      intro h
      obtain ⟨k0, v0⟩ := e
      have h0 : lexLt k0 k = true := h (k0, v0) (by simp)
      have hnot : ¬ lexLt k k0 = true := by simp [lexLt_asymm k0 k h0]
      have hne : ¬ k = k0 := by
        rintro rfl
        rw [lexLt_irrefl] at h0
        exact Bool.false_ne_true h0
      rw [btreeInsert, if_neg hnot, if_neg hne, ih (fun a ha => h a (by simp [ha]))]
      simp

theorem consumed_flat (v : Value) (h : isFlat v = true) :
    bytesConsumed v = (encode_bencoded_value v).length := by
  cases v with
  | bytes bs => rfl
  | integer i =>
      simp [bytesConsumed, encode_bencoded_value]
      omega
  | list xs => simp [isFlat] at h
  | dictionary es => simp [isFlat] at h

theorem flat_goodShape (v : Value) (h : isFlat v = true) : goodShape v = true := by
  cases v with
  | bytes bs => rfl
  | integer i => rfl
  | list xs => simp [isFlat] at h
  | dictionary es => simp [isFlat] at h

theorem drop_append_left (l1 z : List Nat) (c : Nat) :
    (l1 ++ z).drop (l1.length + c) = z.drop c := by
  rw [← List.drop_drop, List.drop_left]

mutual

theorem consumedFactsValue (v : Value) (hg : goodShape v = true) :
    bytesConsumed v ≤ (encode_bencoded_value v).length ∧
      (isFlat v = false → ∃ l, (encode_bencoded_value v).drop (bytesConsumed v) = 101 :: l) := by
  cases v with
  | bytes bs =>
      rw [consumed_flat (.bytes bs) rfl]
      exact ⟨le_rfl, fun h => by simp [isFlat] at h⟩
  | integer i =>
      rw [consumed_flat (.integer i) rfl]
      exact ⟨le_rfl, fun h => by simp [isFlat] at h⟩
  | list xs =>
      have hg' : goodElems xs = true := by simpa [goodShape] using hg
      obtain ⟨h1, l, h2⟩ := consumedFactsElems xs hg'
      constructor
      · simp only [bytesConsumed, encode_bencoded_value, List.length_cons, List.length_append]
        simp
        omega
      · intro _
        refine ⟨l, ?_⟩
        simp only [bytesConsumed, encode_bencoded_value]
        rw [Nat.add_comm 1 (consumedElems xs), List.drop_succ_cons]
        exact h2
  | dictionary es =>
      have hg' : goodEntries es = true := by simpa [goodShape] using hg
      obtain ⟨h1, l, h2⟩ := consumedFactsEntries es hg'
      constructor
      · simp only [bytesConsumed, encode_bencoded_value, List.length_cons, List.length_append]
        simp
        omega
      · intro _
        refine ⟨l, ?_⟩
        simp only [bytesConsumed, encode_bencoded_value]
        rw [Nat.add_comm 1 (consumedEntries es), List.drop_succ_cons]
        exact h2

theorem consumedFactsElems (xs : List Value) (hg : goodElems xs = true) :
    consumedElems xs ≤ (encodeElems xs).length ∧
      ∃ l, (encodeElems xs ++ [101]).drop (consumedElems xs) = 101 :: l := by
  match xs with
  | [] => exact ⟨by simp [consumedElems, encodeElems], [], by simp [consumedElems, encodeElems]⟩
  | [x] =>
      have hgx : goodShape x = true := by simpa [goodElems] using hg
      obtain ⟨hle, hdrop⟩ := consumedFactsValue x hgx
      have hE : encodeElems [x] = encode_bencoded_value x := by
        simp [encodeElems]
      have hC : consumedElems [x] = bytesConsumed x := by
        simp [consumedElems]
      rw [hE, hC]
      refine ⟨hle, ?_⟩
      by_cases hf : isFlat x = true
      · rw [consumed_flat x hf, List.drop_left]
        exact ⟨[], rfl⟩
      · obtain ⟨l0, h0⟩ := hdrop (by simpa using hf)
        rw [List.drop_append_of_le_length hle, h0]
        exact ⟨l0 ++ [101], by simp⟩
  | x :: y :: r =>
      have hgx : isFlat x = true := by
        have := hg
        simp only [goodElems, Bool.and_eq_true] at this
        exact this.1
      have hgr : goodElems (y :: r) = true := by
        have := hg
        simp only [goodElems, Bool.and_eq_true] at this
        exact this.2
      obtain ⟨h1, l, h2⟩ := consumedFactsElems (y :: r) hgr
      have hE : encodeElems (x :: y :: r) = encode_bencoded_value x ++ encodeElems (y :: r) := by
        simp [encodeElems]
      have hC : consumedElems (x :: y :: r) =
          (encode_bencoded_value x).length + consumedElems (y :: r) := by
        simp [consumedElems, consumed_flat x hgx]
      rw [hE, hC]
      constructor
      · simp
        omega
      · rw [List.append_assoc, drop_append_left]
        exact ⟨l, h2⟩

theorem consumedFactsEntries (es : List (List Nat × Value)) (hg : goodEntries es = true) :
    consumedEntries es ≤ (encodeEntries es).length ∧
      ∃ l, (encodeEntries es ++ [101]).drop (consumedEntries es) = 101 :: l := by
  match es with
  | [] => exact ⟨by simp [consumedEntries, encodeEntries], [], by simp [consumedEntries, encodeEntries]⟩
  | [(k, v)] =>
      have hgv : goodShape v = true := by simpa [goodEntries] using hg
      obtain ⟨hle, hdrop⟩ := consumedFactsValue v hgv
      have hE : encodeEntries [(k, v)] = encodeByteString k ++ encode_bencoded_value v := by
        simp [encodeEntries]
      have hC : consumedEntries [(k, v)] = (encodeByteString k).length + bytesConsumed v := by
        simp [consumedEntries]
      rw [hE, hC]
      constructor
      · simp
        omega
      · rw [List.append_assoc, drop_append_left]
        by_cases hf : isFlat v = true
        · rw [consumed_flat v hf, List.drop_left]
          exact ⟨[], rfl⟩
        · obtain ⟨l0, h0⟩ := hdrop (by simpa using hf)
          rw [List.drop_append_of_le_length hle, h0]
          exact ⟨l0 ++ [101], by simp⟩
  | (k, v) :: e2 :: r =>
      have hgv : isFlat v = true := by
        have := hg
        simp only [goodEntries, Bool.and_eq_true] at this
        exact this.1
      have hgr : goodEntries (e2 :: r) = true := by
        have := hg
        simp only [goodEntries, Bool.and_eq_true] at this
        exact this.2
      obtain ⟨h1, l, h2⟩ := consumedFactsEntries (e2 :: r) hgr
      have hE : encodeEntries ((k, v) :: e2 :: r) =
          (encodeByteString k ++ encode_bencoded_value v) ++ encodeEntries (e2 :: r) := by
        simp [encodeEntries]
      have hC : consumedEntries ((k, v) :: e2 :: r) =
          (encodeByteString k ++ encode_bencoded_value v).length + consumedEntries (e2 :: r) := by
        simp [consumedEntries, consumed_flat v hgv]
      rw [hE, hC]
      constructor
      · simp
        omega
      · rw [List.append_assoc, drop_append_left]
        exact ⟨l, h2⟩

end

theorem beq_false_of_ne_58 {a : Nat} (h : a ≤ 57) : (a == 58) = false := by
  simp
  omega

theorem decodeValueF_bytes (fuel : Nat) (bs rest : List Nat) (h : bs.length ≤ 2 ^ 63 - 1) :
    decodeValueF (fuel + 1) (encodeByteString bs ++ rest) =
      .ok (.bytes bs, (encodeByteString bs).length) := by
  rcases hE : natToDecimal bs.length with _ | ⟨d, t⟩
  · exact absurd hE (natToDecimal_ne_nil _)
  have hd : 48 ≤ d ∧ d ≤ 57 := mem_natToDecimal_bounds (hE ▸ List.mem_cons_self d t)
  have hbuf : encodeByteString bs ++ rest = natToDecimal bs.length ++ 58 :: (bs ++ rest) := by
    simp [encodeByteString_eq]
  have hcons : natToDecimal bs.length ++ 58 :: (bs ++ rest) =
      d :: (t ++ 58 :: (bs ++ rest)) := by rw [hE]; rfl
  have hidx : List.findIdx? (fun v => v == 58) (natToDecimal bs.length ++ 58 :: (bs ++ rest)) =
      some (natToDecimal bs.length).length := by
    have := findIdx?_marker (fun v => v == 58) 58 (by simp) (natToDecimal bs.length)
      (bs ++ rest) 0 (fun a ha => beq_false_of_ne_58 (mem_natToDecimal_bounds ha).2)
    simpa using this
  have htake : (natToDecimal bs.length ++ 58 :: (bs ++ rest)).take
      (natToDecimal bs.length).length = natToDecimal bs.length := List.take_left _ _
  have hparse : parseI64 (natToDecimal bs.length) = .ok (bs.length : Int) :=
    parseI64_natToDecimal _ h
  have hlen : (natToDecimal bs.length).length + 1 + (bs.length : Int).toNat ≤
      (natToDecimal bs.length ++ 58 :: (bs ++ rest)).length := by
    simp
    omega
  have hdrop : (natToDecimal bs.length ++ 58 :: (bs ++ rest)).drop
      ((natToDecimal bs.length).length + 1) = bs ++ rest := by
    rw [drop_append_left]
    rfl
  rw [hbuf, hcons]
  simp only [decodeValueF, ← hcons]
  rw [if_pos (show isAsciiDigit d = true by simp [isAsciiDigit]; omega)]
  simp only [hidx, htake, hparse, hdrop, hlen, if_true, Int.toNat_natCast, List.take_left]
  simp [encodeByteString_length]
  omega

theorem decodeValueF_integer (fuel : Nat) (i : Int) (rest : List Nat)
    (h1 : -(2 ^ 63) ≤ i) (h2 : i ≤ 2 ^ 63 - 1) :
    decodeValueF (fuel + 1) (encode_bencoded_value (.integer i) ++ rest) =
      .ok (.integer i, 2 + (intToDecimal i).length) := by
  have hbuf : encode_bencoded_value (.integer i) ++ rest =
      105 :: (intToDecimal i ++ 101 :: rest) := by
    simp [encode_bencoded_value]
  have hidx : List.findIdx? (fun v => v == 101) (105 :: (intToDecimal i ++ 101 :: rest)) =
      some ((intToDecimal i).length + 1) := by
    have hmem : ∀ a ∈ 105 :: intToDecimal i, (a == 101) = false := by
      intro a ha
      rcases List.mem_cons.mp ha with rfl | ha
      · simp
      · rcases mem_intToDecimal_bounds ha with rfl | hb
        · simp
        · simp
          omega
    have := findIdx?_marker (fun v => v == 101) 101 (by simp) (105 :: intToDecimal i)
      rest 0 hmem
    simpa [Nat.add_comm] using this
  have htake : ((105 :: (intToDecimal i ++ 101 :: rest)).take
      ((intToDecimal i).length + 1)).drop 1 = intToDecimal i := by
    rw [List.take_succ_cons, List.drop_one]
    simp [List.take_left]
  have hparse : parseI64 (intToDecimal i) = .ok i := parseI64_intToDecimal i h1 h2
  rw [hbuf]
  simp only [decodeValueF]
  rw [if_neg (show ¬ isAsciiDigit 105 = true by decide)]
  simp only [if_true, hidx, htake, hparse]
  simp
  omega

theorem encode_cons (v : Value) :
    ∃ h t, encode_bencoded_value v = h :: t ∧ ¬ h = 101 := by
  cases v with
  | bytes bs =>
      rcases hE : natToDecimal bs.length with _ | ⟨d, t⟩
      · exact absurd hE (natToDecimal_ne_nil _)
      · have hd := mem_natToDecimal_bounds (hE ▸ List.mem_cons_self d t)
        refine ⟨d, t ++ 58 :: bs, ?_, by omega⟩
        show encodeByteString bs = _
        rw [encodeByteString_eq, hE]
        rfl
  | integer i => exact ⟨105, intToDecimal i ++ [101], rfl, by omega⟩
  | list xs => exact ⟨108, encodeElems xs ++ [101], rfl, by omega⟩
  | dictionary es => exact ⟨100, encodeEntries es ++ [101], rfl, by omega⟩

theorem fuelNeed_pos (v : Value) : 1 ≤ fuelNeed v := by
  cases v <;> simp [fuelNeed]

theorem fuelNeedElems_pos (xs : List Value) : 1 ≤ fuelNeedElems xs := by
  cases xs <;> simp [fuelNeedElems]

theorem fuelNeedEntries_pos (es : List (List Nat × Value)) : 1 ≤ fuelNeedEntries es := by
  rcases es with _ | ⟨⟨k, v⟩, r⟩ <;> simp [fuelNeedEntries]

theorem decodeF_ok : ∀ fuel,
    (∀ v rest, wfValue v = true → goodShape v = true → fuelNeed v ≤ fuel →
      decodeValueF fuel (encode_bencoded_value v ++ rest) = .ok (v, bytesConsumed v)) ∧
    (∀ xs acc pos tail, wfElems xs = true → goodElems xs = true → fuelNeedElems xs ≤ fuel →
      decodeListF fuel (encodeElems xs ++ 101 :: tail) acc pos =
        .ok (.list (acc.reverse ++ xs), pos + consumedElems xs)) ∧
    (∀ es acc pos tail, wfEntries es = true → goodEntries es = true →
      fuelNeedEntries es ≤ fuel → (∀ a ∈ acc, ∀ e ∈ es, lexLt a.1 e.1 = true) →
      decodeDictF fuel (encodeEntries es ++ 101 :: tail) acc pos =
        .ok (.dictionary (acc ++ es), pos + consumedEntries es)) := by
  intro fuel
  induction fuel with
  | zero =>
      refine ⟨?_, ?_, ?_⟩
      · intro v _ _ _ hf
        have := fuelNeed_pos v
        omega
      · intro xs _ _ _ _ _ hf
        have := fuelNeedElems_pos xs
        omega
      · intro es _ _ _ _ _ hf _
        have := fuelNeedEntries_pos es
        omega
  | succ fuel ih =>
      obtain ⟨ihV, ihL, ihD⟩ := ih
      refine ⟨?_, ?_, ?_⟩
      · -- single values
        intro v rest hwf hgood hfuel
        cases v with
        | bytes bs =>
            have hb : bs.length ≤ 2 ^ 63 - 1 := by
              simp [wfValue] at hwf
              exact hwf.1
            exact decodeValueF_bytes fuel bs rest hb
        | integer i =>
            have hb : -(2 ^ 63) ≤ i ∧ i ≤ 2 ^ 63 - 1 := by
              simp [wfValue] at hwf
              exact hwf
            rw [decodeValueF_integer fuel i rest hb.1 hb.2]
            rfl
        | list xs =>
            have hw : wfElems xs = true := by simpa [wfValue] using hwf
            have hg : goodElems xs = true := by simpa [goodShape] using hgood
            have hf : fuelNeedElems xs ≤ fuel := by
              simp [fuelNeed] at hfuel
              omega
            have hbuf : encode_bencoded_value (.list xs) ++ rest =
                108 :: (encodeElems xs ++ 101 :: rest) := by
              simp [encode_bencoded_value]
            rw [hbuf]
            simp only [decodeValueF]
            rw [if_neg (show ¬ isAsciiDigit 108 = true by decide),
              if_neg (show ¬ (108 = 105) by omega)]
            simp only [if_true, List.drop_succ_cons, List.drop_zero]
            rw [ihL xs [] 1 rest hw hg hf]
            simp [bytesConsumed]
        | dictionary es =>
            have hw : wfEntries es = true := by simpa [wfValue] using hwf
            have hg : goodEntries es = true := by simpa [goodShape] using hgood
            have hf : fuelNeedEntries es ≤ fuel := by
              simp [fuelNeed] at hfuel
              omega
            have hbuf : encode_bencoded_value (.dictionary es) ++ rest =
                100 :: (encodeEntries es ++ 101 :: rest) := by
              simp [encode_bencoded_value]
            rw [hbuf]
            simp only [decodeValueF]
            rw [if_neg (show ¬ isAsciiDigit 100 = true by decide),
              if_neg (show ¬ (100 = 105) by omega), if_neg (show ¬ (100 = 108) by omega)]
            simp only [if_true, List.drop_succ_cons, List.drop_zero]
            rw [ihD es [] 1 rest hw hg hf (by simp)]
            simp [bytesConsumed]
      · -- the list loop
        intro xs acc pos tail hwf hgood hfuel
        rcases xs with _ | ⟨x, r⟩
        · have h0 : encodeElems ([] : List Value) ++ 101 :: tail = 101 :: tail := by
            simp [encodeElems]
          rw [h0]
          simp only [decodeListF]
          simp [consumedElems]
        · obtain ⟨hd, t, hE, hne⟩ := encode_cons x
          have hwx : wfValue x = true := by
            simp [wfElems, Bool.and_eq_true] at hwf
            exact hwf.1
          have hwr : wfElems r = true := by
            simp [wfElems, Bool.and_eq_true] at hwf
            exact hwf.2
          have hfx : fuelNeed x ≤ fuel := by
            simp only [fuelNeedElems] at hfuel
            omega
          have hfr : fuelNeedElems r ≤ fuel := by
            simp only [fuelNeedElems] at hfuel
            omega
          have hbuf : encodeElems (x :: r) ++ 101 :: tail =
              hd :: (t ++ (encodeElems r ++ 101 :: tail)) := by
            have : encodeElems (x :: r) = encode_bencoded_value x ++ encodeElems r := by
              simp [encodeElems]
            rw [this, hE]
            simp
          have hback : hd :: (t ++ (encodeElems r ++ 101 :: tail)) =
              encode_bencoded_value x ++ (encodeElems r ++ 101 :: tail) := by
            rw [hE]
            rfl
          rcases r with _ | ⟨y, r'⟩
          · -- last element: its leftover bytes start with the terminator
            have hgx : goodShape x = true := by simpa [goodElems] using hgood
            have hchild := ihV x (encodeElems ([] : List Value) ++ 101 :: tail) hwx hgx hfx
            rw [hbuf]
            simp only [decodeListF]
            rw [if_neg hne, hback]
            simp only [encodeElems] at hchild ⊢
            simp only [List.nil_append] at hchild ⊢
            simp only [hchild]
            obtain ⟨hle, hdrop⟩ := consumedFactsValue x hgx
            have hsplit : (encode_bencoded_value x ++ 101 :: tail).drop (bytesConsumed x) =
                (encode_bencoded_value x).drop (bytesConsumed x) ++ 101 :: tail :=
              List.drop_append_of_le_length hle
            by_cases hflat : isFlat x = true
            · rw [hsplit, consumed_flat x hflat, List.drop_length, List.nil_append]
              have hstep := ihL [] (x :: acc) (pos + (encode_bencoded_value x).length) tail rfl rfl
                (by simp only [fuelNeedElems]
                    have := fuelNeed_pos x
                    omega)
              simp only [encodeElems, List.nil_append] at hstep
              rw [hstep]
              simp [consumedElems, consumed_flat x hflat]
            · obtain ⟨l0, h0⟩ := hdrop (by simpa using hflat)
              rw [hsplit, h0]
              have hstep := ihL [] (x :: acc) (pos + bytesConsumed x) (l0 ++ 101 :: tail) rfl rfl
                (by simp only [fuelNeedElems]
                    have := fuelNeed_pos x
                    omega)
              simp only [encodeElems, List.nil_append] at hstep
              rw [show (101 :: l0) ++ 101 :: tail = 101 :: (l0 ++ 101 :: tail) by simp, hstep]
              simp [consumedElems]
          · -- a later element follows: this element is flat and consumes its full encoding
            have hflat : isFlat x = true := by
              simp only [goodElems, Bool.and_eq_true] at hgood
              exact hgood.1
            have hgr : goodElems (y :: r') = true := by
              simp only [goodElems, Bool.and_eq_true] at hgood
              exact hgood.2
            have hgx : goodShape x = true := flat_goodShape x hflat
            have hchild := ihV x (encodeElems (y :: r') ++ 101 :: tail) hwx hgx hfx
            rw [hbuf]
            simp only [decodeListF]
            rw [if_neg hne, hback]
            simp only [hchild]
            rw [consumed_flat x hflat, List.drop_left]
            rw [ihL (y :: r') (x :: acc) (pos + (encode_bencoded_value x).length) tail hwr
              hgr hfr]
            simp [consumedElems, consumed_flat x hflat, List.append_assoc]
            omega
      · -- the dictionary loop
        intro es acc pos tail hwf hgood hfuel hsorted
        rcases es with _ | ⟨⟨k, v⟩, r⟩
        · have h0 : encodeEntries ([] : List (List Nat × Value)) ++ 101 :: tail =
              101 :: tail := by simp [encodeEntries]
          rw [h0]
          simp only [decodeDictF]
          simp [consumedEntries]
        · simp only [wfEntries, Bool.and_eq_true] at hwf
          obtain ⟨⟨⟨⟨⟨hutf, hklen⟩, hkall⟩, hkbelow⟩, hwv⟩, hwr⟩ := hwf
          have hwbk : wfValue (.bytes k) = true := by
            simp [wfValue]
            refine ⟨by simpa using hklen, ?_⟩
            intro b hb
            have := List.all_eq_true.mp hkall b hb
            simpa using this
          have hfv : fuelNeed v ≤ fuel := by
            simp [fuelNeedEntries] at hfuel
            omega
          have hfr : fuelNeedEntries r ≤ fuel := by
            simp [fuelNeedEntries] at hfuel
            have := fuelNeedEntries_pos r
            omega
          have hfuel1 : 1 ≤ fuel := by
            have := fuelNeed_pos v
            omega
          obtain ⟨hd, t, hE, hne⟩ := encode_cons (.bytes k)
          have hbuf : encodeEntries ((k, v) :: r) ++ 101 :: tail =
              hd :: (t ++ (encode_bencoded_value v ++ (encodeEntries r ++ 101 :: tail))) := by
            have h1 : encodeEntries ((k, v) :: r) =
                encodeByteString k ++ (encode_bencoded_value v ++ encodeEntries r) := by
              simp [encodeEntries]
            have h2 : encodeByteString k = hd :: t := hE
            rw [h1, h2]
            simp
          have hback : hd :: (t ++ (encode_bencoded_value v ++ (encodeEntries r ++ 101 :: tail))) =
              encodeByteString k ++ (encode_bencoded_value v ++ (encodeEntries r ++ 101 :: tail)) := by
            rw [show encodeByteString k = hd :: t from hE]
            rfl
          have hchildk := ihV (.bytes k) (encode_bencoded_value v ++ (encodeEntries r ++ 101 :: tail))
            hwbk rfl (by simpa [fuelNeed] using hfuel1)
          simp only [encode_bencoded_value] at hchildk
          rw [hbuf]
          simp only [decodeDictF]
          rw [if_neg hne, hback]
          simp only [hchildk]
          have hconsk : bytesConsumed (.bytes k) = (encodeByteString k).length := rfl
          rw [hconsk, List.drop_left]
          have hacc : btreeInsert k v acc = acc ++ [(k, v)] :=
            btreeInsert_append k v acc
              (fun a ha => hsorted a ha (k, v) (List.mem_cons_self _ _))
          rcases r with _ | ⟨⟨k2, v2⟩, r'⟩
          · -- final entry
            have hgv : goodShape v = true := by simpa [goodEntries] using hgood
            have hchildv := ihV v (encodeEntries ([] : List (List Nat × Value)) ++ 101 :: tail)
              hwv hgv hfv
            simp only [encodeEntries, List.nil_append] at hchildv ⊢
            rw [if_pos hutf]
            simp only [hchildv]
            obtain ⟨hle, hdrop⟩ := consumedFactsValue v hgv
            have hsplit : (encode_bencoded_value v ++ 101 :: tail).drop (bytesConsumed v) =
                (encode_bencoded_value v).drop (bytesConsumed v) ++ 101 :: tail :=
              List.drop_append_of_le_length hle
            by_cases hflat : isFlat v = true
            · rw [hsplit, consumed_flat v hflat, List.drop_length, List.nil_append]
              have hstep := ihD [] (btreeInsert k v acc)
                (pos + (encodeByteString k).length + (encode_bencoded_value v).length) tail rfl rfl
                (by simp only [fuelNeedEntries]; omega) (by simp)
              simp only [encodeEntries, List.nil_append] at hstep
              rw [hstep, hacc]
              simp [consumedEntries, consumed_flat v hflat]
              omega
            · obtain ⟨l0, h0⟩ := hdrop (by simpa using hflat)
              rw [hsplit, h0]
              have hstep := ihD [] (btreeInsert k v acc)
                (pos + (encodeByteString k).length + bytesConsumed v) (l0 ++ 101 :: tail) rfl rfl
                (by simp only [fuelNeedEntries]; omega) (by simp)
              simp only [encodeEntries, List.nil_append] at hstep
              rw [show (101 :: l0) ++ 101 :: tail = 101 :: (l0 ++ 101 :: tail) by simp, hstep,
                hacc]
              simp [consumedEntries]
              omega
          · -- a later entry follows: this value is flat
            have hflat : isFlat v = true := by
              simp only [goodEntries, Bool.and_eq_true] at hgood
              exact hgood.1
            have hgr : goodEntries ((k2, v2) :: r') = true := by
              simp only [goodEntries, Bool.and_eq_true] at hgood
              exact hgood.2
            have hgv : goodShape v = true := flat_goodShape v hflat
            have hchildv := ihV v (encodeEntries ((k2, v2) :: r') ++ 101 :: tail) hwv hgv hfv
            rw [if_pos hutf]
            simp only [hchildv]
            rw [consumed_flat v hflat, List.drop_left]
            have hsorted2 : ∀ a ∈ acc ++ [(k, v)], ∀ e ∈ (k2, v2) :: r', lexLt a.1 e.1 = true := by
              intro a ha e he
              rcases List.mem_append.mp ha with ha | ha
              · exact hsorted a ha e (List.mem_cons_of_mem _ he)
              · have : a = (k, v) := by simpa using ha
                subst this
                exact List.all_eq_true.mp hkbelow e he
            have hstep := ihD ((k2, v2) :: r') (btreeInsert k v acc)
              (pos + (encodeByteString k).length + (encode_bencoded_value v).length) tail hwr
              hgr hfr (by rw [hacc]; exact hsorted2)
            rw [hstep, hacc]
            simp [consumedEntries, consumed_flat v hflat, List.append_assoc]
            omega

theorem intToDecimal_ne_nil (i : Int) : intToDecimal i ≠ [] := by
  rw [intToDecimal]
  by_cases hi : i < 0
  · simp [hi]
  · simp [hi, natToDecimal_ne_nil]

theorem encode_length_ge_two (v : Value) : 2 ≤ (encode_bencoded_value v).length := by
  cases v with
  | bytes bs =>
      show 2 ≤ (encodeByteString bs).length
      rw [encodeByteString_length]
      have := natToDecimal_ne_nil bs.length
      have : 1 ≤ (natToDecimal bs.length).length := by
        cases hE : natToDecimal bs.length with
        | nil => exact absurd hE (natToDecimal_ne_nil _)
        | cons a t => simp
      omega
  | integer i =>
      have : 1 ≤ (intToDecimal i).length := by
        cases hE : intToDecimal i with
        | nil => exact absurd hE (intToDecimal_ne_nil _)
        | cons a t => simp
      simp [encode_bencoded_value]
  | list xs => simp [encode_bencoded_value]
  | dictionary es => simp [encode_bencoded_value]

mutual

theorem fuelNeed_le (v : Value) : fuelNeed v ≤ (encode_bencoded_value v).length + 1 := by
  cases v with
  | bytes bs => simp [fuelNeed]
  | integer i => simp [fuelNeed]
  | list xs =>
      have h := fuelNeedElems_le xs
      simp only [fuelNeed, encode_bencoded_value]
      simp
      omega
  | dictionary es =>
      have h := fuelNeedEntries_le es
      simp only [fuelNeed, encode_bencoded_value]
      simp
      omega

theorem fuelNeedElems_le (xs : List Value) : fuelNeedElems xs ≤ (encodeElems xs).length + 2 := by
  cases xs with
  | nil => simp [fuelNeedElems, encodeElems]
  | cons x r =>
      have h1 := fuelNeed_le x
      have h2 := fuelNeedElems_le r
      have h3 := encode_length_ge_two x
      simp only [fuelNeedElems, encodeElems]
      simp
      omega

theorem fuelNeedEntries_le (es : List (List Nat × Value)) :
    fuelNeedEntries es ≤ (encodeEntries es).length + 2 := by
  cases es with
  | nil => simp [fuelNeedEntries, encodeEntries]
  | cons e r =>
      obtain ⟨k, v⟩ := e
      have h1 := fuelNeed_le v
      have h2 := fuelNeedEntries_le r
      have h3 := encode_length_ge_two (.bytes k)
      have h4 : (encode_bencoded_value (.bytes k)).length = (encodeByteString k).length := rfl
      simp only [fuelNeedEntries, encodeEntries]
      simp
      omega

end

theorem decode_encode_roundtrip (v : Value) (hwf : wfValue v = true)
    (hg : goodShape v = true) :
    decode_bencoded_value (encode_bencoded_value v) = .ok (v, bytesConsumed v) := by
  rw [decode_bencoded_value]
  have hb : fuelNeed v ≤ 2 * (encode_bencoded_value v).length + 4 := by
    have := fuelNeed_le v
    omega
  rcases hfuel : 2 * (encode_bencoded_value v).length + 4 with _ | f
  · omega
  · have h := (decodeF_ok (f + 1)).1 v [] hwf hg (by omega)
    simpa using h

theorem goodElems_of_all_flat (xs : List Value) (h : xs.all isFlat = true) :
    goodElems xs = true := by
  induction xs with
  | nil => rfl
  | cons x r ih =>
      simp only [List.all_cons, Bool.and_eq_true] at h
      cases r with
      | nil => simpa [goodElems] using flat_goodShape x h.1
      | cons y r' =>
          simp only [goodElems, Bool.and_eq_true]
          exact ⟨h.1, ih h.2⟩

theorem goodEntries_of_all_flat (es : List (List Nat × Value))
    (h : es.all (fun e => isFlat e.2) = true) : goodEntries es = true := by
  induction es with
  | nil => rfl
  | cons e r ih =>
      obtain ⟨k, v⟩ := e
      simp only [List.all_cons, Bool.and_eq_true] at h
      cases r with
      | nil => simpa [goodEntries] using flat_goodShape v h.1
      | cons e2 r' =>
          simp only [goodEntries, Bool.and_eq_true]
          exact ⟨h.1, ih h.2⟩

theorem consumedElems_all_flat (xs : List Value) (h : xs.all isFlat = true) :
    consumedElems xs = (encodeElems xs).length := by
  induction xs with
  | nil => simp [consumedElems, encodeElems]
  | cons x r ih =>
      simp only [List.all_cons, Bool.and_eq_true] at h
      simp only [consumedElems, encodeElems, List.length_append]
      rw [consumed_flat x h.1, ih h.2]

theorem consumedEntries_all_flat (es : List (List Nat × Value))
    (h : es.all (fun e => isFlat e.2) = true) :
    consumedEntries es = (encodeEntries es).length := by
  induction es with
  | nil => simp [consumedEntries, encodeEntries]
  | cons e r ih =>
      obtain ⟨k, v⟩ := e
      simp only [List.all_cons, Bool.and_eq_true] at h
      simp only [consumedEntries, encodeEntries, List.length_append]
      rw [consumed_flat v h.1, ih h.2]

theorem decodeValueF_short (fuel n : Nat) (bs : List Nat) (hlt : bs.length < n)
    (hb : n ≤ 2 ^ 63 - 1) :
    decodeValueF (fuel + 1) (natToDecimal n ++ 58 :: bs) = .panic := by
  have hex : ∃ d t, natToDecimal n = d :: t := by
    cases hE : natToDecimal n with
    | nil => exact absurd hE (natToDecimal_ne_nil _)
    | cons a t => exact ⟨a, t, rfl⟩
  obtain ⟨d, t, hE⟩ := hex
  have hd : 48 ≤ d ∧ d ≤ 57 := mem_natToDecimal_bounds (by rw [hE]; exact List.mem_cons_self d t)
  have hcons : natToDecimal n ++ 58 :: bs = d :: (t ++ 58 :: bs) := by rw [hE]; rfl
  have hidx : List.findIdx? (fun v => v == 58) (natToDecimal n ++ 58 :: bs) =
      some (natToDecimal n).length := by
    have := findIdx?_marker (fun v => v == 58) 58 (by simp) (natToDecimal n)
      bs 0 (fun a ha => beq_false_of_ne_58 (mem_natToDecimal_bounds ha).2)
    simpa using this
  have htake : (natToDecimal n ++ 58 :: bs).take (natToDecimal n).length = natToDecimal n :=
    List.take_left _ _
  have hparse : parseI64 (natToDecimal n) = .ok (n : Int) := parseI64_natToDecimal _ hb
  have hlen : ¬ ((natToDecimal n).length + 1 + (n : Int).toNat ≤
      (natToDecimal n ++ 58 :: bs).length) := by
    simp
    omega
  rw [hcons]
  simp only [decodeValueF, ← hcons]
  rw [if_pos (show isAsciiDigit d = true by simp [isAsciiDigit]; omega)]
  simp only [hidx, htake, hparse, Int.toNat_natCast]
  rw [if_neg (by simpa using hlen)]

/-- C1 (counterexample): the round-trip claim fails on a nested list followed
by a sibling.  Encoding the value `[[], 1]` yields the bytes of `llei1ee`, but
decoding those bytes returns the value `[[]]` with 2 bytes consumed: the list
loop reports the offset of a child container's terminating byte as its
consumed count, so the parent resumes at that terminator, mistakes it for its
own, and drops the sibling `1`. -/
theorem c1_counterexample :
    decode_bencoded_value (encode_bencoded_value (.list [.list [], .integer 1])) =
      .ok (.list [.list []], 2) ∧
    Value.list [Value.list []] ≠ Value.list [Value.list [], Value.integer 1] :=
  ⟨by decide, by decide⟩

/-- C1 (amended): decoding the encoding of a constructible value recovers the
value exactly — provided every list or dictionary nested strictly inside it is
the final element of its enclosing list (respectively the value of the last
key of its enclosing dictionary).  Without that restriction the claim is false
(`c1_counterexample`): any element following a nested container is dropped.
The consumed count it returns alongside is `bytesConsumed v`, the encoded
length minus one byte per enclosing container on the rightmost spine. -/
theorem c1_roundtrip_amended (v : Value) (hwf : wfValue v = true)
    (hg : goodShape v = true) :
    decode_bencoded_value (encode_bencoded_value v) = .ok (v, bytesConsumed v) :=
  decode_encode_roundtrip v hwf hg

theorem c1_witness :
    wfValue (.list [.integer 1, .list [.bytes [104, 105]]]) = true ∧
    goodShape (.list [.integer 1, .list [.bytes [104, 105]]]) = true ∧
    decode_bencoded_value (encode_bencoded_value
        (.list [.integer 1, .list [.bytes [104, 105]]])) =
      .ok (.list [.integer 1, .list [.bytes [104, 105]]],
        bytesConsumed (.list [.integer 1, .list [.bytes [104, 105]]])) :=
  ⟨by decide, by decide, c1_roundtrip_amended _ (by decide) (by decide)⟩

/-- C10 (counterexample): the consumed count is not the terminator offset for
every well-formed list input.  The four bytes of `llee` — a well-formed list
containing one empty list — decode with a consumed count of 2, not 3: each
nesting level loses one further byte, so the count can be smaller than the
offset of the outer terminating byte. -/
theorem c10_counterexample :
    decode_bencoded_value [108, 108, 101, 101] = .ok (.list [.list []], 2) ∧
    ¬ (2 : Nat) = [108, 108, 101, 101].length - 1 :=
  ⟨by decide, by decide⟩

/-- C10 (amended): for a list or dictionary whose elements (entry values) are
all byte strings or integers, the consumed count equals the offset of the
terminating byte — one less than the full encoded length — whereas byte
strings and integers consume their full encoded length.  The original claim
over every well-formed container input fails once containers nest
(`c10_counterexample`). -/
theorem c10_consumed_counts :
    (∀ xs, wfElems xs = true → xs.all isFlat = true →
      decode_bencoded_value (encode_bencoded_value (.list xs)) =
        .ok (.list xs, (encode_bencoded_value (.list xs)).length - 1)) ∧
    (∀ es, wfEntries es = true → es.all (fun e => isFlat e.2) = true →
      decode_bencoded_value (encode_bencoded_value (.dictionary es)) =
        .ok (.dictionary es, (encode_bencoded_value (.dictionary es)).length - 1)) ∧
    (∀ bs, wfValue (.bytes bs) = true →
      decode_bencoded_value (encode_bencoded_value (.bytes bs)) =
        .ok (.bytes bs, (encode_bencoded_value (.bytes bs)).length)) ∧
    (∀ i, wfValue (.integer i) = true →
      decode_bencoded_value (encode_bencoded_value (.integer i)) =
        .ok (.integer i, (encode_bencoded_value (.integer i)).length)) := by
  refine ⟨?_, ?_, ?_, ?_⟩
  · intro xs hwf hflat
    rw [decode_encode_roundtrip (.list xs) (by simpa [wfValue] using hwf)
      (by simpa [goodShape] using goodElems_of_all_flat xs hflat)]
    have hc : bytesConsumed (.list xs) = 1 + (encodeElems xs).length := by
      simp [bytesConsumed, consumedElems_all_flat xs hflat]
    have hl : (encode_bencoded_value (.list xs)).length = (encodeElems xs).length + 2 := by
      simp [encode_bencoded_value]
    rw [hc, hl]
    congr 2
    omega
  · intro es hwf hflat
    rw [decode_encode_roundtrip (.dictionary es) (by simpa [wfValue] using hwf)
      (by simpa [goodShape] using goodEntries_of_all_flat es hflat)]
    have hc : bytesConsumed (.dictionary es) = 1 + (encodeEntries es).length := by
      simp [bytesConsumed, consumedEntries_all_flat es hflat]
    have hl : (encode_bencoded_value (.dictionary es)).length =
        (encodeEntries es).length + 2 := by
      simp [encode_bencoded_value]
    rw [hc, hl]
    congr 2
    omega
  · intro bs hwf
    rw [decode_encode_roundtrip (.bytes bs) hwf rfl, consumed_flat (.bytes bs) rfl]
  · intro i hwf
    rw [decode_encode_roundtrip (.integer i) hwf rfl, consumed_flat (.integer i) rfl]

theorem c10_witness :
    decode_bencoded_value (encode_bencoded_value
        (.list [.bytes (asciiBytes ("hello")), .integer 52])) =
      .ok (.list [.bytes (asciiBytes ("hello")), .integer 52],
        (encode_bencoded_value (.list [.bytes (asciiBytes ("hello")), .integer 52])).length - 1) :=
  c10_consumed_counts.1 [.bytes (asciiBytes ("hello")), .integer 52] (by decide) (by decide)

/-- C3 (counterexample): on the empty buffer the decoder's outcome is the
abort: the source indexes byte 0 unconditionally and the process panics.  No
FormatError value is returned to the caller — the source has no error-value
channel at all — refuting the claim that the failure is an explicit error
result rather than an abort. -/
theorem c3_counterexample : decode_bencoded_value [] = PanicOr.panic := by decide

/-- C3 (amended): on an empty buffer, on a leading byte that is no digit and
none of 105, 108, 100 (the letters i, l, d), and on a byte string whose
declared decimal length exceeds the bytes remaining after the colon, the
decoder panics — the process aborts with no result at all, partial or
otherwise; it does not return a FormatError value, since the source has no
error channel. -/
theorem c3_malformed_input_panics :
    decode_bencoded_value [] = .panic ∧
    (∀ b rest, isAsciiDigit b = false → ¬ b = 105 → ¬ b = 108 → ¬ b = 100 →
      decode_bencoded_value (b :: rest) = .panic) ∧
    (∀ n bs, bs.length < n → n ≤ 2 ^ 63 - 1 →
      decode_bencoded_value (natToDecimal n ++ 58 :: bs) = .panic) := by
  refine ⟨by decide, ?_, ?_⟩
  · intro b rest h1 h2 h3 h4
    rw [decode_bencoded_value]
    have hf : 2 * (b :: rest).length + 4 = (2 * rest.length + 5) + 1 := by
      simp
      omega
    rw [hf]
    simp only [decodeValueF]
    rw [if_neg (by simp [h1]), if_neg h2, if_neg h3, if_neg h4]
  · intro n bs h1 h2
    rw [decode_bencoded_value]
    have hf : 2 * (natToDecimal n ++ 58 :: bs).length + 4 =
        (2 * (natToDecimal n ++ 58 :: bs).length + 3) + 1 := by omega
    rw [hf]
    exact decodeValueF_short _ n bs h1 h2

theorem c3_witness :
    decode_bencoded_value [120] = .panic ∧
    decode_bencoded_value (asciiBytes ("5:abc")) = .panic :=
  ⟨c3_malformed_input_panics.2.1 120 [] (by decide) (by decide) (by decide) (by decide),
   c3_malformed_input_panics.2.2 5 (asciiBytes ("abc")) (by decide) (by decide)⟩

theorem btreeRemove_some_lookup (k : List Nat) :
    ∀ es v es', btreeRemove k es = some (v, es') → lookupKey k es = some v := by
  intro es
  induction es with
  | nil => intro v es' h; simp [btreeRemove] at h
  | cons e rest ih =>
      intro v es' h
      obtain ⟨k0, v0⟩ := e
      rw [btreeRemove] at h
      rw [lookupKey]
      by_cases hk : k0 = k
      · rw [if_pos hk] at h
        rw [if_pos hk]
        simp at h
        simp [h.1]
      · rw [if_neg hk] at h
        rw [if_neg hk]
        rcases hrec : btreeRemove k rest with _ | ⟨w, rest'⟩
        · rw [hrec] at h
          simp at h
        · rw [hrec] at h
          simp at h
          exact (ih w rest' hrec).trans (by rw [h.1])

theorem lookupKey_btreeRemove_other (k1 k2 : List Nat) (hne : ¬ k1 = k2) :
    ∀ es x es', btreeRemove k1 es = some (x, es') → lookupKey k2 es' = lookupKey k2 es := by
  intro es
  induction es with
  | nil => intro x es' h; simp [btreeRemove] at h
  | cons e rest ih =>
      intro x es' h
      obtain ⟨k0, v0⟩ := e
      rw [btreeRemove] at h
      by_cases hk : k0 = k1
      · rw [if_pos hk] at h
        simp at h
        rw [h.2, lookupKey, if_neg (by rw [hk]; exact hne)]
      · rw [if_neg hk] at h
        rcases hrec : btreeRemove k1 rest with _ | ⟨w, rest'⟩
        · rw [hrec] at h
          simp at h
        · rw [hrec] at h
          simp at h
          rw [← h.2, lookupKey, lookupKey]
          by_cases h02 : k0 = k2
          · rw [if_pos h02, if_pos h02]
          · rw [if_neg h02, if_neg h02]
            exact ih w rest' hrec

theorem metainfoInfo_decode_hash (iv : Value) (info : MetainfoInfo)
    (h : MetainfoInfo.decode iv = .ok info) :
    info.hash = sha1 (encode_bencoded_value iv) := by
  simp only [MetainfoInfo.decode] at h
  repeat' split at h
  all_goals try exact PanicOr.noConfusion h
  rw [← PanicOr.ok.inj h]

/-- C2: whenever `Metainfo::decode` succeeds on a root dictionary, the decoded
`info_hash` equals the SHA-1 digest of the canonical bencoding of the entire
`info` sub-value of that dictionary.  The digest is taken of
`encode_bencoded_value infoValue` — the re-encoding of the whole sub-value,
computed before any field is extracted — so entries the client does not
understand (keys other than length, name, piece length, pieces) are part of
the hashed bytes rather than dropped. -/
theorem c2_info_hash (v : Value) (m : Metainfo) (entries : List (List Nat × Value))
    (infoValue : Value) (h : Metainfo.decode v = .ok m) (hv : v = .dictionary entries)
    (hlook : lookupKey (asciiBytes ("info")) entries = some infoValue) :
    m.info.hash = sha1 (encode_bencoded_value infoValue) := by
  subst hv
  simp only [Metainfo.decode, Value.into_dictionary] at h
  rcases hremA : btreeRemove (asciiBytes ("announce")) entries with _ | ⟨av, d1⟩
  · simp only [hremA] at h
    exact PanicOr.noConfusion h
  simp only [hremA] at h
  rcases hab : av.into_bytes with _ | ab
  · simp only [hab] at h
    exact PanicOr.noConfusion h
  simp only [hab] at h
  by_cases hutf : validUtf8 ab = true
  · rw [if_pos hutf] at h
    rcases hremI : btreeRemove (asciiBytes ("info")) d1 with _ | ⟨ivv, d2⟩
    · simp only [hremI] at h
      exact PanicOr.noConfusion h
    simp only [hremI] at h
    rcases hdecI : MetainfoInfo.decode ivv with _ | infoR
    · simp only [hdecI] at h
      exact PanicOr.noConfusion h
    simp only [hdecI] at h
    have hiv : ivv = infoValue := by
      have l1 := btreeRemove_some_lookup _ d1 ivv d2 hremI
      have l2 := lookupKey_btreeRemove_other (asciiBytes ("announce")) (asciiBytes ("info"))
        (by decide) entries av d1 hremA
      rw [l2, hlook] at l1
      exact (Option.some.inj l1).symm
    rw [← PanicOr.ok.inj h]
    simp only []
    rw [metainfoInfo_decode_hash ivv infoR hdecI, hiv]
  · rw [if_neg hutf] at h
    exact PanicOr.noConfusion h

theorem c2_witness :
    Metainfo.decode exampleRoot = .ok exampleMeta ∧
    exampleMeta.info.hash = sha1 (encode_bencoded_value exampleInfoValue) :=
  ⟨by decide,
   c2_info_hash exampleRoot exampleMeta
     [(asciiBytes ("announce"), .bytes (asciiBytes ("http://t"))),
      (asciiBytes ("info"), exampleInfoValue)]
     exampleInfoValue (by decide) rfl (by decide)⟩

theorem listChunksAux_join (n : Nat) (hn : 0 < n) :
    ∀ fuel l, l.length ≤ fuel → (listChunksAux fuel n l).flatten = l := by
  intro fuel
  induction fuel with
  | zero =>
      intro l hl
      have : l = [] := List.length_eq_zero.mp (by omega)
      subst this
      rfl
  | succ f ih =>
      intro l hl
      cases l with
      | nil => rfl
      | cons a t =>
          rw [listChunksAux]
          simp only [List.flatten_cons]
          have hdl : ((a :: t).drop n).length ≤ f := by
            simp only [List.length_drop, List.length_cons] at hl ⊢
            omega
          rw [ih ((a :: t).drop n) hdl]
          exact List.take_append_drop n (a :: t)

theorem listChunks_join (n : Nat) (hn : 0 < n) (l : List Nat) : (listChunks n l).flatten = l :=
  listChunksAux_join n hn l.length l le_rfl

theorem listChunksAux20_length :
    ∀ fuel (l : List Nat), l.length ≤ fuel →
      (listChunksAux fuel 20 l).length = (l.length + 19) / 20 := by
  intro fuel
  induction fuel with
  | zero =>
      intro l hl
      have : l = [] := List.length_eq_zero.mp (by omega)
      subst this
      rfl
  | succ f ih =>
      intro l hl
      cases l with
      | nil => rfl
      | cons a t =>
          rw [listChunksAux]
          simp only [List.length_cons]
          have hdl : ((a :: t).drop 20).length ≤ f := by
            simp only [List.length_drop, List.length_cons] at hl ⊢
            omega
          rw [ih ((a :: t).drop 20) hdl]
          simp only [List.length_drop, List.length_cons] at hl ⊢
          omega

theorem listChunks20_length (l : List Nat) : (listChunks 20 l).length = (l.length + 19) / 20 :=
  listChunksAux20_length l.length l le_rfl

/-- C5 (counterexample): `MetainfoInfo::decode` accepts a `pieces` byte string
whose length, 5, is not a multiple of 20: decoding succeeds — no format error
is raised, because the source never examines the length of `pieces` at all. -/
theorem c5_counterexample :
    ¬ (5 % 20 = 0) ∧ MetainfoInfo.decode exampleInfoValue ≠ PanicOr.panic :=
  ⟨by decide, by decide⟩

/-- C5 (amended): decoding performs no validation of the `pieces` length and
no comparison against `ceil(length / piece_length)`; the pieces bytes are
stored unchanged, and `piece_hashes` cuts them into `⌈pieces_len / 20⌉`
chunks whose concatenation is exactly the pieces bytes — a final chunk
shorter than 20 is returned rather than dropped, and no error is ever
produced. -/
theorem c5_piece_hashes (v : Value) (info : MetainfoInfo)
    (entries : List (List Nat × Value)) (pb : List Nat)
    (h : MetainfoInfo.decode v = .ok info) (hv : v = .dictionary entries)
    (hlook : lookupKey (asciiBytes ("pieces")) entries = some (.bytes pb)) :
    info.pieces = pb ∧
    info.piece_hashes.length = (pb.length + 19) / 20 ∧
    info.piece_hashes.flatten = pb := by
  subst hv
  simp only [MetainfoInfo.decode, Value.into_dictionary] at h
  rcases hrem1 : btreeRemove (asciiBytes ("length")) entries with _ | ⟨lv, d1⟩
  · simp only [hrem1] at h
    exact PanicOr.noConfusion h
  simp only [hrem1] at h
  rcases hint1 : lv.into_integer with _ | li
  · simp only [hint1] at h
    exact PanicOr.noConfusion h
  simp only [hint1] at h
  rcases hrem2 : btreeRemove (asciiBytes ("name")) d1 with _ | ⟨nv, d2⟩
  · simp only [hrem2] at h
    exact PanicOr.noConfusion h
  simp only [hrem2] at h
  rcases hnb : nv.into_bytes with _ | nb
  · simp only [hnb] at h
    exact PanicOr.noConfusion h
  simp only [hnb] at h
  by_cases hutf : validUtf8 nb = true
  · rw [if_pos hutf] at h
    rcases hrem3 : btreeRemove (asciiBytes ("piece length")) d2 with _ | ⟨plv, d3⟩
    · simp only [hrem3] at h
      exact PanicOr.noConfusion h
    simp only [hrem3] at h
    rcases hint2 : plv.into_integer with _ | pli
    · simp only [hint2] at h
      exact PanicOr.noConfusion h
    simp only [hint2] at h
    rcases hrem4 : btreeRemove (asciiBytes ("pieces")) d3 with _ | ⟨pv, d4⟩
    · simp only [hrem4] at h
      exact PanicOr.noConfusion h
    simp only [hrem4] at h
    rcases hpb : pv.into_bytes with _ | pieces
    · simp only [hpb] at h
      exact PanicOr.noConfusion h
    simp only [hpb] at h
    by_cases hpos : 0 ≤ li ∧ 0 ≤ pli
    · rw [if_pos hpos] at h
      have hpv : pv = .bytes pb := by
        have l4 := btreeRemove_some_lookup _ d3 pv d4 hrem4
        have t3 := lookupKey_btreeRemove_other (asciiBytes ("piece length"))
          (asciiBytes ("pieces")) (by decide) d2 plv d3 hrem3
        have t2 := lookupKey_btreeRemove_other (asciiBytes ("name"))
          (asciiBytes ("pieces")) (by decide) d1 nv d2 hrem2
        have t1 := lookupKey_btreeRemove_other (asciiBytes ("length"))
          (asciiBytes ("pieces")) (by decide) entries lv d1 hrem1
        rw [t3, t2, t1, hlook] at l4
        exact (Option.some.inj l4).symm
      have hpieces : pieces = pb := by
        rw [hpv] at hpb
        exact (by simpa [Value.into_bytes] using hpb : pb = pieces).symm
      rw [← PanicOr.ok.inj h]
      refine ⟨hpieces, ?_, ?_⟩
      · simp only [MetainfoInfo.piece_hashes]
        rw [hpieces, listChunks20_length]
      · simp only [MetainfoInfo.piece_hashes]
        rw [hpieces, listChunks_join 20 (by omega)]
    · rw [if_neg hpos] at h
      exact PanicOr.noConfusion h
  · rw [if_neg hutf] at h
    exact PanicOr.noConfusion h

theorem c5_witness :
    MetainfoInfo.decode exampleInfoValue = .ok exampleMeta.info ∧
    exampleMeta.info.pieces = [1, 2, 3, 4, 5] ∧
    exampleMeta.info.piece_hashes.length = (([1, 2, 3, 4, 5] : List Nat).length + 19) / 20 ∧
    exampleMeta.info.piece_hashes.flatten = [1, 2, 3, 4, 5] := by
  have h := c5_piece_hashes exampleInfoValue exampleMeta.info
    [(asciiBytes ("length"), .integer 1),
     (asciiBytes ("name"), .bytes (asciiBytes ("a"))),
     (asciiBytes ("piece length"), .integer 1),
     (asciiBytes ("pieces"), .bytes [1, 2, 3, 4, 5]),
     (asciiBytes ("zz"), .integer 9)]
    [1, 2, 3, 4, 5] (by decide) rfl (by decide)
  exact ⟨by decide, h.1, h.2.1, h.2.2⟩

/-- C4 (counterexample): a frame whose length byte is 18 makes the receiver
read 1 + 18 = 19 bytes — not 68 — before the protocol-literal assertion
panics; the read count depends on the length byte, and the failure is an
assertion abort, not a ProtocolError value. -/
theorem c4_counterexample :
    HandshakeResponse.decode (18 :: List.replicate 80 0) = .panic 19 ∧ ¬ (19 = 68) :=
  ⟨by decide, by decide⟩

/-- C4 (amended): on a successful receive the stream necessarily began with
length byte 19 followed by the ASCII literal, exactly 68 bytes were read, and
the returned info_hash and peer_id are the stream's bytes 28 to 47 and 48 to
67 unchanged; whenever the length byte differs from 19 (and that many literal
bytes are available) the receiver reads 1 + length bytes and panics — an
assertion abort, not a ProtocolError value. -/
theorem c4_handshake :
    (∀ stream resp n, HandshakeResponse.decode stream = .ok resp n →
      n = 68 ∧ stream.head? = some 19 ∧
      (stream.drop 1).take 19 = asciiBytes ("BitTorrent protocol") ∧
      resp.info_hash = (stream.drop 28).take 20 ∧
      resp.peer_id = (stream.drop 48).take 20) ∧
    (∀ b rest, ¬ b = 19 → b ≤ rest.length →
      HandshakeResponse.decode (b :: rest) = .panic (1 + b)) := by
  have hlit : (asciiBytes ("BitTorrent protocol")).length = 19 := by decide
  constructor
  · intro stream resp n h
    cases stream with
    | nil => simp [HandshakeResponse.decode] at h
    | cons length rest =>
        simp only [HandshakeResponse.decode] at h
        by_cases h1 : rest.length < length
        · rw [if_pos h1] at h
          exact HandshakeOutcome.noConfusion h
        rw [if_neg h1] at h
        by_cases h2 : validUtf8 (rest.take length) = true
        · rw [if_pos h2] at h
          by_cases h3 : rest.take length = asciiBytes ("BitTorrent protocol")
          · rw [if_pos h3] at h
            have hlen19 : length = 19 := by
              have hl := congrArg List.length h3
              rw [List.length_take, hlit] at hl
              omega
            subst hlen19
            by_cases h4 : (rest.drop 19).length < 8
            · rw [if_pos h4] at h
              exact HandshakeOutcome.noConfusion h
            rw [if_neg h4] at h
            by_cases h5 : ((rest.drop 19).drop 8).length < 20
            · rw [if_pos h5] at h
              exact HandshakeOutcome.noConfusion h
            rw [if_neg h5] at h
            by_cases h6 : (((rest.drop 19).drop 8).drop 20).length < 20
            · rw [if_pos h6] at h
              exact HandshakeOutcome.noConfusion h
            rw [if_neg h6] at h
            have hr := HandshakeOutcome.ok.inj h
            refine ⟨by omega, rfl, by simpa using h3, ?_, ?_⟩
            · rw [← hr.1]
              simp [List.drop_drop]
            · rw [← hr.1]
              simp [List.drop_drop]
          · rw [if_neg h3] at h
            exact HandshakeOutcome.noConfusion h
        · rw [if_neg h2] at h
          exact HandshakeOutcome.noConfusion h
  · intro b rest hne hle
    simp only [HandshakeResponse.decode]
    rw [if_neg (by omega)]
    have hne2 : ¬ rest.take b = asciiBytes ("BitTorrent protocol") := by
      intro hEq
      have hl := congrArg List.length hEq
      rw [List.length_take, hlit] at hl
      omega
    by_cases h2 : validUtf8 (rest.take b) = true
    · rw [if_pos h2, if_neg hne2]
    · rw [if_neg h2]

theorem c4_witness :
    HandshakeResponse.decode
        (19 :: (asciiBytes ("BitTorrent protocol") ++ List.replicate 8 0 ++
          List.replicate 20 7 ++ List.replicate 20 9)) =
      .ok ⟨List.replicate 20 7, List.replicate 20 9⟩ 68 ∧
    (68 : Nat) = 68 ∧
    HandshakeResponse.decode (5 :: List.replicate 67 0) = .panic (1 + 5) := by
  refine ⟨by decide, ?_, ?_⟩
  · exact (c4_handshake.1
      (19 :: (asciiBytes ("BitTorrent protocol") ++ List.replicate 8 0 ++
        List.replicate 20 7 ++ List.replicate 20 9))
      ⟨List.replicate 20 7, List.replicate 20 9⟩ 68 (by decide)).1
  · exact c4_handshake.2 5 (List.replicate 67 0) (by decide) (by decide)

theorem listChunksExactAux6_length :
    ∀ fuel (l : List Nat), l.length ≤ fuel →
      (listChunksExactAux fuel 6 l).length = l.length / 6 := by
  intro fuel
  induction fuel with
  | zero =>
      intro l hl
      have : l = [] := List.length_eq_zero.mp (by omega)
      subst this
      rfl
  | succ f ih =>
      intro l hl
      rw [listChunksExactAux]
      by_cases h6 : 6 ≤ l.length
      · rw [if_pos h6]
        simp only [List.length_cons]
        have hdl : (l.drop 6).length ≤ f := by
          simp only [List.length_drop]
          omega
        rw [ih (l.drop 6) hdl]
        simp only [List.length_drop]
        omega
      · rw [if_neg h6]
        simp
        omega

theorem listChunksExact6_length (l : List Nat) :
    (listChunksExact 6 l).length = l.length / 6 :=
  listChunksExactAux6_length l.length l le_rfl

theorem listChunksExact_12 (l : List Nat) (hl : l.length = 12) :
    listChunksExact 6 l = [l.take 6, (l.drop 6).take 6] := by
  rw [listChunksExact, hl]
  rw [show (12 : Nat) = 11 + 1 from rfl, listChunksExactAux, if_pos (by omega)]
  rw [show (11 : Nat) = 10 + 1 from rfl, listChunksExactAux,
    if_pos (by simp only [List.length_drop]; omega)]
  rw [show (10 : Nat) = 9 + 1 from rfl, listChunksExactAux,
    if_neg (by simp only [List.length_drop]; omega)]

theorem trackerResponse_decode_peers (v : Value) (resp : TrackerResponse)
    (entries : List (List Nat × Value)) (pb : List Nat)
    (h : TrackerResponse.decode v = .ok resp) (hv : v = .dictionary entries)
    (hlook : lookupKey (asciiBytes ("peers")) entries = some (.bytes pb)) :
    resp.peers = (listChunksExact 6 pb).map peerOfChunk := by
  subst hv
  simp only [TrackerResponse.decode, Value.into_dictionary] at h
  rcases hremI : btreeRemove (asciiBytes ("interval")) entries with _ | ⟨iv, d1⟩
  · simp only [hremI] at h
    exact PanicOr.noConfusion h
  simp only [hremI] at h
  rcases hint : iv.into_integer with _ | ii
  · simp only [hint] at h
    exact PanicOr.noConfusion h
  simp only [hint] at h
  by_cases hpos : 0 ≤ ii
  · rw [if_pos hpos] at h
    rcases hremP : btreeRemove (asciiBytes ("peers")) d1 with _ | ⟨pv, d2⟩
    · simp only [hremP] at h
      exact PanicOr.noConfusion h
    simp only [hremP] at h
    rcases hpbv : pv.into_bytes with _ | peerBytes
    · simp only [hpbv] at h
      exact PanicOr.noConfusion h
    simp only [hpbv] at h
    have hpv : pv = .bytes pb := by
      have l1 := btreeRemove_some_lookup _ d1 pv d2 hremP
      have t1 := lookupKey_btreeRemove_other (asciiBytes ("interval"))
        (asciiBytes ("peers")) (by decide) entries iv d1 hremI
      rw [t1, hlook] at l1
      exact (Option.some.inj l1).symm
    have hpeerBytes : peerBytes = pb := by
      rw [hpv] at hpbv
      exact (by simpa [Value.into_bytes] using hpbv : pb = peerBytes).symm
    rw [← PanicOr.ok.inj h, hpeerBytes]
  · rw [if_neg hpos] at h
    exact PanicOr.noConfusion h

/-- C6 (counterexample): a peers byte string of length 7 — not a multiple of
six — does not make parsing fail: `TrackerResponse::decode` succeeds and
produces one peer entry from the first six bytes, silently discarding the
seventh, because `chunks_exact` drops the remainder without any error. -/
theorem c6_counterexample :
    ¬ ((7 : Nat) % 6 = 0) ∧
    TrackerResponse.decode c6Value = .ok ⟨0, [⟨(1, 2, 3, 4), 1286⟩]⟩ :=
  ⟨by decide, by decide⟩

/-- C6 (amended): parsing a tracker response never checks the peers length:
it succeeds and yields exactly `⌊len / 6⌋` peer entries, one per complete
six-byte chunk, with any trailing bytes beyond a multiple of six silently
discarded rather than reported. -/
theorem c6_peers (v : Value) (resp : TrackerResponse)
    (entries : List (List Nat × Value)) (pb : List Nat)
    (h : TrackerResponse.decode v = .ok resp) (hv : v = .dictionary entries)
    (hlook : lookupKey (asciiBytes ("peers")) entries = some (.bytes pb)) :
    resp.peers = (listChunksExact 6 pb).map peerOfChunk ∧
    resp.peers.length = pb.length / 6 := by
  have hp := trackerResponse_decode_peers v resp entries pb h hv hlook
  refine ⟨hp, ?_⟩
  rw [hp, List.length_map, listChunksExact6_length]

theorem c6_witness :
    TrackerResponse.decode c6Value = .ok ⟨0, [⟨(1, 2, 3, 4), 1286⟩]⟩ ∧
    (TrackerResponse.mk 0 [⟨(1, 2, 3, 4), 1286⟩]).peers =
      (listChunksExact 6 [1, 2, 3, 4, 5, 6, 7]).map peerOfChunk ∧
    (TrackerResponse.mk 0 [⟨(1, 2, 3, 4), 1286⟩]).peers.length =
      ([1, 2, 3, 4, 5, 6, 7] : List Nat).length / 6 := by
  have h := c6_peers c6Value ⟨0, [⟨(1, 2, 3, 4), 1286⟩]⟩
    [(asciiBytes ("interval"), .integer 0),
     (asciiBytes ("peers"), .bytes [1, 2, 3, 4, 5, 6, 7])]
    [1, 2, 3, 4, 5, 6, 7] (by decide) rfl (by decide)
  exact ⟨by decide, h.1, h.2⟩

/-- C7: a compact peers byte string of length 12 decodes to exactly two peer
addresses: one per six-byte chunk, where `peerOfChunk` builds the IPv4
address from the chunk's first four bytes in order and the port from its last
two bytes in big-endian order, exactly as the source's cursor reads them. -/
theorem c7_two_peers (v : Value) (resp : TrackerResponse)
    (entries : List (List Nat × Value)) (pb : List Nat)
    (h : TrackerResponse.decode v = .ok resp) (hv : v = .dictionary entries)
    (hlook : lookupKey (asciiBytes ("peers")) entries = some (.bytes pb))
    (hlen : pb.length = 12) :
    resp.peers.length = 2 ∧
    resp.peers = [peerOfChunk (pb.take 6), peerOfChunk ((pb.drop 6).take 6)] := by
  have hp := trackerResponse_decode_peers v resp entries pb h hv hlook
  rw [hp, listChunksExact_12 pb hlen]
  exact ⟨rfl, rfl⟩

theorem c7_witness :
    TrackerResponse.decode
        (.dictionary [
          (asciiBytes ("interval"), .integer 0),
          (asciiBytes ("peers"), .bytes [10, 0, 0, 1, 26, 225, 192, 168, 1, 2, 0, 80])]) =
      .ok ⟨0, [⟨(10, 0, 0, 1), 6881⟩, ⟨(192, 168, 1, 2), 80⟩]⟩ ∧
    (TrackerResponse.mk 0 [⟨(10, 0, 0, 1), 6881⟩, ⟨(192, 168, 1, 2), 80⟩]).peers.length = 2 ∧
    (TrackerResponse.mk 0 [⟨(10, 0, 0, 1), 6881⟩, ⟨(192, 168, 1, 2), 80⟩]).peers =
      [peerOfChunk (([10, 0, 0, 1, 26, 225, 192, 168, 1, 2, 0, 80] : List Nat).take 6),
       peerOfChunk ((([10, 0, 0, 1, 26, 225, 192, 168, 1, 2, 0, 80] : List Nat).drop 6).take 6)] := by
  have h := c7_two_peers
    (.dictionary [
      (asciiBytes ("interval"), .integer 0),
      (asciiBytes ("peers"), .bytes [10, 0, 0, 1, 26, 225, 192, 168, 1, 2, 0, 80])])
    ⟨0, [⟨(10, 0, 0, 1), 6881⟩, ⟨(192, 168, 1, 2), 80⟩]⟩
    [(asciiBytes ("interval"), .integer 0),
     (asciiBytes ("peers"), .bytes [10, 0, 0, 1, 26, 225, 192, 168, 1, 2, 0, 80])]
    [10, 0, 0, 1, 26, 225, 192, 168, 1, 2, 0, 80] (by decide) rfl (by decide) (by decide)
  exact ⟨by decide, h.1, h.2⟩

/-- C8 (counterexample): the built URL does not percent-encode every byte of
info_hash and peer_id: for a hash byte 65 and peer-id byte 66 — ASCII letters,
in the RFC 3986 unreserved set — the URL contains the bytes literally, not as
percent escapes, so it differs from the claim's all-escaped rendering. -/
theorem c8_counterexample :
    TrackerRequest.url c8Request c8Metainfo ≠ urlClaimAllEncoded c8Request c8Metainfo := by
  decide

/-- C8 (amended): the URL is the announce string, a question mark, and the
seven parameters joined by ampersands in the source's order — info_hash,
peer_id, port, uploaded, downloaded, left, compact — where the numeric fields
are decimal ASCII and compact is the single byte 49 or 48 (the digits 1 and
0); the binary fields are percent-encoded byte by byte, each byte outside the
RFC 3986 unreserved set becoming a percent sign and two uppercase hex digits,
while unreserved bytes (letters, digits, hyphen, period, underscore, tilde)
pass through literally. -/
theorem c8_url_encoding :
    (∀ req metainfo, TrackerRequest.url req metainfo =
      metainfo.announce ++ 63 :: (asciiBytes ("info_hash=") ++
        encode_binary metainfo.info.hash ++
        38 :: (asciiBytes ("peer_id=") ++ encode_binary req.peer_id ++
        38 :: (asciiBytes ("port=") ++ natToDecimal req.port ++
        38 :: (asciiBytes ("uploaded=") ++ natToDecimal req.uploaded ++
        38 :: (asciiBytes ("downloaded=") ++ natToDecimal req.downloaded ++
        38 :: (asciiBytes ("left=") ++ natToDecimal req.left ++
        38 :: (asciiBytes ("compact=") ++ [if req.compact then 49 else 48])))))))) ∧
    (∀ b, ¬ isUrlUnreserved b = true →
      encode_binary [b] = [37, hexDigitUpper (b / 16), hexDigitUpper (b % 16)]) ∧
    (∀ b, isUrlUnreserved b = true → encode_binary [b] = [b]) ∧
    (∀ data, encode_binary data = data.flatMap fun b => encode_binary [b]) := by
  refine ⟨?_, ?_, ?_, ?_⟩
  · intro req metainfo
    rw [TrackerRequest.url]
    rcases req with ⟨ih, pid, port, up, down, left, compact⟩
    cases compact with
    | false => rfl
    | true => rfl
  · intro b hb
    simp [encode_binary, hb]
  · intro b hb
    simp [encode_binary, hb]
  · intro data
    induction data with
    | nil => rfl
    | cons b t ih =>
        simp only [encode_binary, List.flatMap_cons] at ih ⊢
        rw [← ih]
        simp

theorem c8_witness :
    encode_binary [32] = [37, 50, 48] ∧
    encode_binary [65] = [65] ∧
    TrackerRequest.url c8Request c8Metainfo =
      c8Metainfo.announce ++ 63 :: (asciiBytes ("info_hash=") ++
        encode_binary c8Metainfo.info.hash ++
        38 :: (asciiBytes ("peer_id=") ++ encode_binary c8Request.peer_id ++
        38 :: (asciiBytes ("port=") ++ natToDecimal c8Request.port ++
        38 :: (asciiBytes ("uploaded=") ++ natToDecimal c8Request.uploaded ++
        38 :: (asciiBytes ("downloaded=") ++ natToDecimal c8Request.downloaded ++
        38 :: (asciiBytes ("left=") ++ natToDecimal c8Request.left ++
        38 :: (asciiBytes ("compact=") ++ [if c8Request.compact then 49 else 48]))))))) :=
  ⟨by have h := c8_url_encoding.2.1 32 (by decide)
      simpa using h,
   c8_url_encoding.2.2.1 65 (by decide),
   c8_url_encoding.1 c8Request c8Metainfo⟩

theorem pieceBlocksAux_spec :
    ∀ fuel pl remaining, remaining ≤ fuel → remaining ≤ pl →
      ((pieceBlocksAux fuel pl remaining).map Prod.snd).sum = remaining ∧
      (∀ p ∈ pieceBlocksAux fuel pl remaining, 0 < p.2 ∧ p.2 ≤ block_size) ∧
      (remaining = 0 → pieceBlocksAux fuel pl remaining = []) ∧
      (0 < remaining →
        (pieceBlocksAux fuel pl remaining).head?.map Prod.fst = some (pl - remaining)) ∧
      List.Chain' (fun a b => a.1 + a.2 = b.1) (pieceBlocksAux fuel pl remaining) ∧
      (0 < remaining → ((pieceBlocksAux fuel pl remaining).getLast?).map Prod.snd =
        some (if remaining % block_size = 0 then block_size else remaining % block_size)) := by
  intro fuel
  induction fuel with
  | zero =>
      intro pl remaining h1 h2
      have hr : remaining = 0 := by omega
      subst hr
      exact ⟨rfl, by simp [pieceBlocksAux], fun _ => rfl, by omega, by simp [pieceBlocksAux],
        by omega⟩
  | succ f ih =>
      intro pl remaining h1 h2
      by_cases hr : remaining = 0
      · subst hr
        rw [pieceBlocksAux, if_pos rfl]
        exact ⟨rfl, by simp, fun _ => rfl, by omega, by simp, by omega⟩
      · rw [pieceBlocksAux, if_neg hr]
        dsimp only
        have hbs : 0 < block_size := by norm_num [block_size]
        have hm1 : 0 < min remaining block_size := by omega
        have hm2 : min remaining block_size ≤ remaining := by omega
        obtain ⟨ih1, ih2, ih3, ih4, ih5, ih6⟩ :=
          ih pl (remaining - min remaining block_size) (by omega) (by omega)
        refine ⟨?_, ?_, by omega, ?_, ?_, ?_⟩
        · simp only [List.map_cons, List.sum_cons, ih1]
          omega
        · intro p hp
          rcases List.mem_cons.mp hp with rfl | hp
          · exact ⟨hm1, by omega⟩
          · exact ih2 p hp
        · intro _
          rfl
        · rw [List.chain'_cons']
          refine ⟨?_, ih5⟩
          intro b hb
          by_cases htz : remaining - min remaining block_size = 0
          · rw [ih3 htz] at hb
            simp at hb
          · have hhd := ih4 (by omega)
            rcases hh : (pieceBlocksAux f pl (remaining - min remaining block_size)).head? with
              _ | b'
            · rw [hh] at hb
              simp at hb
            · rw [hh] at hhd hb
              simp only [Option.map_some', Option.some.injEq] at hhd
              simp only [Option.mem_def, Option.some.injEq] at hb
              subst hb
              show (pl - remaining) + (remaining ⊓ block_size) = _
              omega
        · intro _
          by_cases htz : remaining - min remaining block_size = 0
          · rw [ih3 htz]
            have hone : ((pl - remaining, min remaining block_size) ::
                ([] : List (Nat × Nat))).getLast? =
                some (pl - remaining, min remaining block_size) := rfl
            rw [hone]
            simp only [Option.map_some']
            have hms : min remaining block_size = remaining := by omega
            show some (remaining ⊓ block_size) = _
            rw [hms]
            congr 1
            by_cases hmod : remaining % block_size = 0
            · rw [if_pos hmod]
              have : remaining ≤ block_size := by omega
              have h0 : 0 < remaining := by omega
              rcases Nat.lt_or_ge remaining block_size with hlt | hge
              · rw [Nat.mod_eq_of_lt hlt] at hmod
                omega
              · omega
            · rw [if_neg hmod]
              have : remaining < block_size ∨ remaining = block_size := by omega
              rcases this with hlt | heq
              · rw [Nat.mod_eq_of_lt hlt]
              · rw [heq, Nat.mod_self] at hmod
                omega
          · have h0 : 0 < remaining - min remaining block_size := by omega
            have hmin : min remaining block_size = block_size := by omega
            rcases htl : pieceBlocksAux f pl (remaining - min remaining block_size) with _ | ⟨c, u⟩
            · have hx := ih4 h0
              rw [htl] at hx
              simp at hx
            · have h6 := ih6 h0
              rw [htl] at h6
              rw [List.getLast?_cons_cons, h6]
              congr 1
              rw [hmin]
              have hmod : (remaining - block_size) % block_size = remaining % block_size := by
                have hsum : remaining - block_size + block_size = remaining := by omega
                calc (remaining - block_size) % block_size
                    = (remaining - block_size + block_size) % block_size := by
                      rw [Nat.add_mod_right]
                _ = remaining % block_size := by rw [hsum]
              rw [hmod]

theorem chainLt_of_contig :
    ∀ l : List (Nat × Nat), List.Chain' (fun a b => a.1 + a.2 = b.1) l →
      (∀ p ∈ l, 0 < p.2) → List.Chain' (fun a b => a.1 < b.1) l := by
  intro l
  induction l with
  | nil => intro _ _; exact List.chain'_nil
  | cons a t ih =>
      intro hc hp
      cases t with
      | nil => simp
      | cons b u =>
          rw [List.chain'_cons] at hc ⊢
          refine ⟨?_, ih hc.2 (fun p hp2 => hp p (List.mem_cons_of_mem _ hp2))⟩
          have := hp a (by simp)
          omega

/-- C9: for a piece index whose start offset lies inside the file, the
download loop's effective piece length is `min(piece_length, total −
piece_length * index)`; the requested blocks partition that length — their
sizes sum to it exactly — each block is nonempty and at most 16384 bytes,
offsets are contiguous and strictly ascending from 0, and the final block's
size is the division remainder (or a full 16384 when the length divides
evenly). -/
theorem c9_blocks (pieceLen totalLen idx : Nat) (h : pieceLen * idx < totalLen) :
    ((pieceBlocks (effective_piece_length pieceLen totalLen idx)).map Prod.snd).sum =
      effective_piece_length pieceLen totalLen idx ∧
    (∀ p ∈ pieceBlocks (effective_piece_length pieceLen totalLen idx),
      0 < p.2 ∧ p.2 ≤ block_size) ∧
    List.Chain' (fun a b => a.1 + a.2 = b.1)
      (pieceBlocks (effective_piece_length pieceLen totalLen idx)) ∧
    List.Chain' (fun a b => a.1 < b.1)
      (pieceBlocks (effective_piece_length pieceLen totalLen idx)) ∧
    (0 < effective_piece_length pieceLen totalLen idx →
      (pieceBlocks (effective_piece_length pieceLen totalLen idx)).head?.map Prod.fst =
        some 0) ∧
    (0 < effective_piece_length pieceLen totalLen idx →
      ((pieceBlocks (effective_piece_length pieceLen totalLen idx)).getLast?).map Prod.snd =
        some (if effective_piece_length pieceLen totalLen idx % block_size = 0 then block_size
          else effective_piece_length pieceLen totalLen idx % block_size)) := by
  obtain ⟨s1, s2, s3, s4, s5, s6⟩ :=
    pieceBlocksAux_spec (effective_piece_length pieceLen totalLen idx)
      (effective_piece_length pieceLen totalLen idx)
      (effective_piece_length pieceLen totalLen idx) le_rfl le_rfl
  exact ⟨s1, s2, s5, chainLt_of_contig _ s5 (fun p hp => (s2 p hp).1),
    fun h0 => by simpa using s4 h0, s6⟩

theorem c9_witness :
    ((pieceBlocks (effective_piece_length 40000 1048576 0)).map Prod.snd).sum =
      effective_piece_length 40000 1048576 0 :=
  (c9_blocks 40000 1048576 0 (by decide)).1
